import Mathlib

/-!
# infra_exporter: the sampling loops of `apmosys_infra_agent.go`

A shallow embedding of the host telemetry agent.  The Prometheus registry
becomes an explicit `Registry` record that the sampler loop bodies transform;
the operating-system readings (`cpu.Times`, `disk.IOCounters`,
`net.IOCounters`, the output of `ps`) are inputs of the loop bodies.

Conventions.

* A Go `float64` is modelled by `F64`: a finite value is an exact rational,
  and the three non-finite values `NaN`, `+Inf`, `-Inf` arise from a division
  by zero as in IEEE 754.  Floating-point additions, products and quotients
  are exact (no rounding, no overflow, no signed zero); the conversion of a
  `uint64` to `float64` rounds to 53 significant bits, as the hardware does.
* A Go runtime panic is the result `none` of an `Option`-valued function.
* A Go `(value, error)` pair is an `Except String value`.
* A Go `string` holds arbitrary bytes.  It is modelled by `GoString`, the
  sequence Go's UTF-8 decoding (`for range`, `utf8.ValidString`) reads in it:
  validly encoded code points and bytes that belong to no valid encoding.
  The names that gopsutil reports for cores, disks and interfaces are text
  and are Lean `String`s.
-/

namespace InfraExporter

/-! ## float64 -/

/-- Value of a Go `float64` expression: an exact rational, or one of the
non-finite IEEE values. -/
inductive F64 where
  | fin (q : ℚ)
  | nan
  | posInf
  | negInf
  deriving DecidableEq

namespace F64

/-- Sum `x + y` of two `float64` values. -/
def add : F64 → F64 → F64
  | fin a, fin b => fin (a + b)
  | nan, _ => nan
  | _, nan => nan
  | posInf, negInf => nan
  | negInf, posInf => nan
  | posInf, _ => posInf
  | _, posInf => posInf
  | negInf, _ => negInf
  | _, negInf => negInf

/-- Negation `-x`. -/
def neg : F64 → F64
  | fin a => fin (-a)
  | nan => nan
  | posInf => negInf
  | negInf => posInf

/-- Difference `x - y`. -/
def sub (x y : F64) : F64 := add x (neg y)

/-- The infinity whose sign is the sign of the non-zero rational `s`. -/
def infOfSign (s : ℚ) : F64 := if 0 < s then posInf else negInf

/-- Product `x * y`. -/
def mul : F64 → F64 → F64
  | fin a, fin b => fin (a * b)
  | nan, _ => nan
  | _, nan => nan
  | fin a, posInf => if a = 0 then nan else infOfSign a
  | fin a, negInf => if a = 0 then nan else infOfSign (-a)
  | posInf, fin b => if b = 0 then nan else infOfSign b
  | negInf, fin b => if b = 0 then nan else infOfSign (-b)
  | posInf, posInf => posInf
  | negInf, negInf => posInf
  | posInf, negInf => negInf
  | negInf, posInf => negInf

/-- Quotient `x / y`: a finite value divided by zero is `NaN` when the
numerator is zero and an infinity otherwise; Go does not panic on a
floating-point division by zero. -/
def div : F64 → F64 → F64
  | fin a, fin b => if b = 0 then (if a = 0 then nan else infOfSign a) else fin (a / b)
  | nan, _ => nan
  | _, nan => nan
  | fin _, posInf => fin 0
  | fin _, negInf => fin 0
  | posInf, fin b => if 0 ≤ b then posInf else negInf
  | negInf, fin b => if 0 ≤ b then negInf else posInf
  | posInf, posInf => nan
  | posInf, negInf => nan
  | negInf, posInf => nan
  | negInf, negInf => nan

/-- The value is a finite number. -/
def isFinite : F64 → Bool
  | fin _ => true
  | _ => false

end F64

/-! ## Go strings -/

/-- One step of Go's UTF-8 decoding of a string: a validly encoded code
point, or a byte that is part of no valid encoding (which `for range` reads
as U+FFFD of width 1). -/
inductive GoRune where
  | char (c : Char)
  | bad (b : UInt8)
  deriving DecidableEq

/-- A Go `string`, as the sequence its UTF-8 decoding reads. -/
abbrev GoString := List GoRune

/-- The Go string that holds the text `s`. -/
def str (s : String) : GoString := s.data.map GoRune.char

/-- The function `utf8.ValidString`: no byte of the string is outside a valid
encoding. -/
def ValidString (s : GoString) : Bool :=
  s.all fun r =>
    match r with
    | GoRune.char _ => true
    | GoRune.bad _ => false

/-! ## Metric vectors -/

/-- A `GaugeVec` / `CounterVec`: the metrics of one family, keyed by their
label values.  Prometheus keeps them in a map; the order of the list carries
no meaning. -/
abbrev MetricVec (α : Type) := List (List GoString × α)

namespace MetricVec

variable {α : Type}

/-- Value of the metric with label values `lvs`, if it exists. -/
def get? : MetricVec α → List GoString → Option α
  | [], _ => none
  | (k, x) :: rest, lvs => if k = lvs then some x else get? rest lvs

/-- Label values of the metrics present in the family. -/
def keys (v : MetricVec α) : List (List GoString) := v.map Prod.fst

/-- The metric with label values `lvs` is looked up, created with value
`zero` when it does not exist yet, and updated by `f`. -/
def modify : MetricVec α → List GoString → α → (α → α) → MetricVec α
  | [], lvs, zero, f => [(lvs, f zero)]
  | (k, x) :: rest, lvs, zero, f =>
    if k = lvs then (k, f x) :: rest else (k, x) :: modify rest lvs zero f

/-- The call `vec.Reset()`: deletes every metric of the family. -/
def Reset (_ : MetricVec α) : MetricVec α := []

end MetricVec

/-- The check `validateLabelValues` that `vec.WithLabelValues(lvs...)` makes
before it looks the metric up: every label value is valid UTF-8, or the call
panics.  (The number of values equals the number of declared labels at every
call of the source.) -/
def validateLabelValues (lvs : List GoString) : Bool := lvs.all ValidString

/-- A family of gauges. -/
abbrev GaugeVec := MetricVec F64

/-- The call `gaugeVec.WithLabelValues(lvs...).Set(x)`; `none` when
`WithLabelValues` panics. -/
def GaugeVec.Set (v : GaugeVec) (lvs : List GoString) (x : F64) : Option GaugeVec :=
  if validateLabelValues lvs then some (MetricVec.modify v lvs (F64.fin 0) (fun _ => x))
  else none

/-! ## Counters -/

/-- The multiple of `2^e` nearest to `n`, a tie going to the even multiple. -/
def roundAt (e n : Nat) : Nat :=
  let u := 2 ^ e
  let q := n / u
  let r := n % u
  if 2 * r < u ∨ (2 * r = u ∧ q % 2 = 0) then q * u else (q + 1) * u

/-- The conversion `float64(n)` of a `uint64`, as an integer: `n` rounded to
53 significant bits, a tie going to the even significand. -/
def roundToFloat64 (n : Nat) : Nat := roundAt (Nat.log2 n - 52) n

/-- The conversion `float64(n)` of a `uint64`. -/
def float64OfUint64 (n : Nat) : ℚ := (roundToFloat64 n : ℚ)

/-- The conversion `uint64(v)` of a non-negative `float64`: the integer part
of `v`; for `v` of `2^64` or more Go leaves the result to the platform, and
`outOfRange` is what the platform gives. -/
def uint64OfFloat64 (outOfRange : Nat) (v : ℚ) : Nat :=
  if v < 2 ^ 64 then ⌊v⌋₊ else outOfRange % 2 ^ 64

/-- A Prometheus counter: the increments that are whole numbers are summed in
the `uint64` field `valInt`, the others in the `float64` field `valBits`. -/
structure Counter where
  valBits : ℚ
  valInt : Nat
  deriving DecidableEq

/-- A counter that was just created. -/
def Counter.zero : Counter := { valBits := 0, valInt := 0 }

/-- The value a scrape reads from the counter: `valBits + float64(valInt)`. -/
def Counter.get (c : Counter) : ℚ := c.valBits + float64OfUint64 c.valInt

/-- The call `counter.Add(v)`: panics when `v` is negative; a whole number is
added to `valInt`, which wraps at `2^64`. -/
def Counter.Add (outOfRange : Nat) (c : Counter) (v : ℚ) : Option Counter :=
  if v < 0 then none
  else
    let ival := uint64OfFloat64 outOfRange v
    if float64OfUint64 ival = v then some { c with valInt := (c.valInt + ival) % 2 ^ 64 }
    else some { c with valBits := c.valBits + v }

/-- A family of counters. -/
abbrev CounterVec := MetricVec Counter

/-- The call `counterVec.WithLabelValues(lvs...).Add(v)`; `none` when
`WithLabelValues` or `Add` panics. -/
def CounterVec.Add (outOfRange : Nat) (v : CounterVec) (lvs : List GoString) (d : ℚ) :
    Option CounterVec :=
  if validateLabelValues lvs then
    (Counter.Add outOfRange ((MetricVec.get? v lvs).getD Counter.zero) d).map
      (fun c => MetricVec.modify v lvs Counter.zero (fun _ => c))
  else none

/-- Value a scrape reads from a counter of the family; a counter that does
not exist yet has contributed nothing. -/
def CounterVec.value (v : CounterVec) (lvs : List GoString) : ℚ :=
  ((MetricVec.get? v lvs).getD Counter.zero).get

/-! ## Registry -/

/-- The pair of counters registered for one network interface. -/
structure NetCounters where
  networkReceiveBytesTotal : Counter
  networkTransmitBytesTotal : Counter
  deriving DecidableEq

/-- Every metric `main` registers. -/
structure Registry where
  totalMemoryGauge : F64
  freeMemoryGauge : F64
  usedMemoryGauge : F64
  cpuUsageGauge : F64
  cpuModeGaugeVec : GaugeVec
  cpuIdleGauge : F64
  diskSizeGaugeVec : GaugeVec
  memTotalBytes : F64
  memAvailableBytes : F64
  diskAvailGaugeVec : GaugeVec
  bufferMemoryGauge : F64
  cachedMemoryGauge : F64
  swapTotalMemoryGauge : F64
  swapFreeMemoryGauge : F64
  diskReadBytesTotal : CounterVec
  diskWrittenBytesTotal : CounterVec
  network : List (String × NetCounters)
  processListGauge : GaugeVec
  deriving DecidableEq

/-- The registry right after registration: every gauge and counter is zero
and every family is empty. -/
def Registry.fresh : Registry where
  totalMemoryGauge := F64.fin 0
  freeMemoryGauge := F64.fin 0
  usedMemoryGauge := F64.fin 0
  cpuUsageGauge := F64.fin 0
  cpuModeGaugeVec := []
  cpuIdleGauge := F64.fin 0
  diskSizeGaugeVec := []
  memTotalBytes := F64.fin 0
  memAvailableBytes := F64.fin 0
  diskAvailGaugeVec := []
  bufferMemoryGauge := F64.fin 0
  cachedMemoryGauge := F64.fin 0
  swapTotalMemoryGauge := F64.fin 0
  swapFreeMemoryGauge := F64.fin 0
  diskReadBytesTotal := []
  diskWrittenBytesTotal := []
  network := []
  processListGauge := []

/-! ## CPU sampler -/

/-- One entry of `cpu.Times(true)`: the CPU-time breakdown of one core, in
seconds. -/
structure TimesStat where
  CPU : String
  User : ℚ
  System : ℚ
  Idle : ℚ
  Nice : ℚ
  Iowait : ℚ
  Irq : ℚ
  Softirq : ℚ
  Steal : ℚ
  Guest : ℚ
  GuestNice : ℚ
  deriving DecidableEq

/-- The sum computed on line 21 of the source for the entry `t`. -/
def totalTime (t : TimesStat) : ℚ :=
  t.User + t.System + t.Nice + t.Idle + t.Iowait + t.Irq + t.Softirq + t.Steal + t.Guest
    + t.GuestNice

/-- Body of the `for _, cpuTime := range cpuTimes` loop (lines 24-31): the
eight per-mode gauges of one core. -/
def setModeGauges (v : GaugeVec) (cpuTime : TimesStat) : Option GaugeVec := do
  let v ← GaugeVec.Set v [str cpuTime.CPU, str "idle"] (F64.fin cpuTime.Idle)
  let v ← GaugeVec.Set v [str cpuTime.CPU, str "iowait"] (F64.fin cpuTime.Iowait)
  let v ← GaugeVec.Set v [str cpuTime.CPU, str "irq"] (F64.fin cpuTime.Irq)
  let v ← GaugeVec.Set v [str cpuTime.CPU, str "nice"] (F64.fin cpuTime.Nice)
  let v ← GaugeVec.Set v [str cpuTime.CPU, str "softirq"] (F64.fin cpuTime.Softirq)
  let v ← GaugeVec.Set v [str cpuTime.CPU, str "steal"] (F64.fin cpuTime.Steal)
  let v ← GaugeVec.Set v [str cpuTime.CPU, str "system"] (F64.fin cpuTime.System)
  GaugeVec.Set v [str cpuTime.CPU, str "user"] (F64.fin cpuTime.User)

/-- The function `collectCPUMetrics`, given the list `cpuTimes` that
`cpu.Times(true)` returned (its error is discarded by the source).  The three
gauge parameters of the source are the registry fields of the same names.
The result is `none` when the function panics: `cpuTimes[0]` is out of range
on an empty list. -/
def collectCPUMetrics (cpuTimes : List TimesStat) (st : Registry) : Option Registry :=
  match cpuTimes[0]? with
  | none => none
  | some first =>
    let total := totalTime first
    match cpuTimes.foldlM setModeGauges st.cpuModeGaugeVec with
    | none => none
    | some modeVec =>
      let cpuUsage :=
        F64.mul (F64.fin 100)
          (F64.div (F64.sub (F64.fin total) (F64.fin first.Idle)) (F64.fin total))
      some { st with
        cpuModeGaugeVec := modeVec
        cpuUsageGauge := cpuUsage
        cpuIdleGauge := F64.sub (F64.fin 100) cpuUsage }

/-! ## Disk and network I/O samplers -/

/-- One entry of `disk.IOCounters()`: the cumulative byte totals of one device
(`uint64` in the source). -/
structure DiskIOCountersStat where
  Name : String
  ReadBytes : Nat
  WriteBytes : Nat
  deriving DecidableEq

/-- One entry of `net.IOCounters(false)`: the cumulative byte totals of one
interface (`uint64` in the source). -/
structure NetIOCountersStat where
  Name : String
  BytesSent : Nat
  BytesRecv : Nat
  deriving DecidableEq

/-- Body of `for _, stat := range diskStats` in the disk sampler (lines
183-186), on the two counter families. -/
def diskStatStep (outOfRange : Nat) (cs : CounterVec × CounterVec) (stat : DiskIOCountersStat) :
    Option (CounterVec × CounterVec) := do
  let rd ← CounterVec.Add outOfRange cs.1 [str stat.Name] (float64OfUint64 stat.ReadBytes)
  let wr ← CounterVec.Add outOfRange cs.2 [str stat.Name] (float64OfUint64 stat.WriteBytes)
  pure (rd, wr)

/-- One cycle of the disk I/O sampler (lines 182-186), given the entries
`diskStats` that `disk.IOCounters()` returned, in the order the loop visits
them.  The result is `none` when a call panics. -/
def diskSamplerCycle (outOfRange : Nat) (diskStats : List DiskIOCountersStat) (st : Registry) :
    Option Registry :=
  (diskStats.foldlM (diskStatStep outOfRange)
      (st.diskReadBytesTotal, st.diskWrittenBytesTotal)).map
    (fun cs => { st with diskReadBytesTotal := cs.1, diskWrittenBytesTotal := cs.2 })

/-- Body of `for _, netInterface := range netStat` in the sampler of the
interface `iface` (lines 217-222), on the two counters of that interface. -/
def netStatStep (outOfRange : Nat) (iface : String) (c : NetCounters)
    (netInterface : NetIOCountersStat) : Option NetCounters :=
  if netInterface.Name = iface then do
    let rx ← Counter.Add outOfRange c.networkReceiveBytesTotal
      (float64OfUint64 netInterface.BytesRecv)
    let tx ← Counter.Add outOfRange c.networkTransmitBytesTotal
      (float64OfUint64 netInterface.BytesSent)
    pure { networkReceiveBytesTotal := rx, networkTransmitBytesTotal := tx }
  else
    pure c

/-- One cycle of the network sampler of the interface `iface` (lines
216-222), given the entries `netStat` that `net.IOCounters(false)` returned,
on the two counters the goroutine captured. -/
def netSamplerCycle (outOfRange : Nat) (iface : String) (netStat : List NetIOCountersStat)
    (c : NetCounters) : Option NetCounters :=
  netStat.foldlM (netStatStep outOfRange iface) c

/-- Runs the disk sampler for the successive readings `rounds`, one cycle per
reading. -/
def diskSamplerRun (outOfRange : Nat) (rounds : List (List DiskIOCountersStat)) (st : Registry) :
    Option Registry :=
  rounds.foldlM (fun s diskStats => diskSamplerCycle outOfRange diskStats s) st

/-- Runs the sampler of the interface `iface` for the successive readings
`rounds`, one cycle per reading. -/
def netSamplerRun (outOfRange : Nat) (iface : String) (rounds : List (List NetIOCountersStat))
    (c : NetCounters) : Option NetCounters :=
  rounds.foldlM (fun s netStat => netSamplerCycle outOfRange iface netStat s) c

/-- The calls `counterVec.WithLabelValues(lvs...).Add(float64(n))` for the
`(label values, reading)` pairs `items`, one after the other. -/
def CounterVec.addAll (outOfRange : Nat) (v : CounterVec) (items : List (List GoString × Nat)) :
    Option CounterVec :=
  items.foldlM (fun v it => CounterVec.Add outOfRange v it.1 (float64OfUint64 it.2)) v

/-- The amounts a cycle adds to the counter with label values `lvs`, given
the `(label values, reading)` pairs of the cycle in order: the readings of
the pairs with these label values, each converted to `float64`. -/
def amountsFor (lvs : List GoString) (items : List (List GoString × Nat)) : List Nat :=
  (items.filter (fun it => it.1 = lvs)).map (fun it => roundToFloat64 it.2)

/-- The `(label values, ReadBytes)` pairs of one reading of the disks. -/
def readItems (diskStats : List DiskIOCountersStat) : List (List GoString × Nat) :=
  diskStats.map (fun stat => ([str stat.Name], stat.ReadBytes))

/-- The `(label values, WriteBytes)` pairs of one reading of the disks. -/
def writeItems (diskStats : List DiskIOCountersStat) : List (List GoString × Nat) :=
  diskStats.map (fun stat => ([str stat.Name], stat.WriteBytes))

/-- The amounts a cycle of the sampler of `iface` adds to its receive
counter. -/
def recvAmounts (iface : String) (netStat : List NetIOCountersStat) : List Nat :=
  (netStat.filter (fun ni => ni.Name = iface)).map (fun ni => roundToFloat64 ni.BytesRecv)

/-- The amounts a cycle of the sampler of `iface` adds to its transmit
counter. -/
def sentAmounts (iface : String) (netStat : List NetIOCountersStat) : List Nat :=
  (netStat.filter (fun ni => ni.Name = iface)).map (fun ni => roundToFloat64 ni.BytesSent)

/-! ## Process list -/

/-- The struct `Process`. -/
structure Process where
  Pid : GoString
  Name : GoString
  deriving DecidableEq

/-- The predicate `unicode.IsSpace` on a code point. -/
def isSpace (c : Char) : Bool :=
  let r := c.toNat
  (0x09 ≤ r && r ≤ 0x0D) || r = 0x20 || r = 0x85 || r = 0xA0 || r = 0x1680
    || (0x2000 ≤ r && r ≤ 0x200A) || r = 0x2028 || r = 0x2029 || r = 0x202F
    || r = 0x205F || r = 0x3000

/-- The predicate `unicode.IsSpace` on what the decoding reads: a byte outside
any valid encoding reads as U+FFFD, which is not a space. -/
def isSpaceRune (r : GoRune) : Bool :=
  match r with
  | GoRune.char c => isSpace c
  | GoRune.bad _ => false

/-- The call `strings.Split(s, "\n")`: the pieces between the newlines, the
text after the last newline being the last piece. -/
def Split : GoString → List GoString
  | [] => [[]]
  | r :: rs =>
    if r = GoRune.char '\n' then [] :: Split rs
    else
      match Split rs with
      | [] => [[r]]
      | l :: ls => (r :: l) :: ls

/-- The scan of `strings.Fields`: `cur` holds, reversed, what was read of the
field in progress. -/
def fieldsAux : GoString → GoString → List GoString
  | [], cur => if cur = [] then [] else [cur.reverse]
  | r :: rs, cur =>
    if isSpaceRune r then
      if cur = [] then fieldsAux rs [] else cur.reverse :: fieldsAux rs []
    else fieldsAux rs (r :: cur)

/-- The call `strings.Fields(s)`: the maximal runs of `s` without a space. -/
def Fields (s : GoString) : List GoString := fieldsAux s []

/-- Body of `for _, line := range lines[1:]` in `getProcessList` (lines
276-279). -/
def appendProcess (processes : List Process) (line : GoString) : List Process :=
  let fields := Fields line
  if h : fields.length ≥ 2 then
    processes ++ [{ Pid := fields[0], Name := fields[1] }]
  else processes

/-- The function `getProcessList`, given the result `cmdOutput` of
`cmd.Output()`.  The outer `Option` is `none` when the function panics:
`make` with a negative capacity, or `lines[1:]` on an empty slice. -/
def getProcessList (cmdOutput : Except String GoString) :
    Option (Except String (List Process)) :=
  match cmdOutput with
  | .error err => some (.error err)
  | .ok output =>
    let lines := Split output
    if (lines.length : Int) - 1 < 0 then none
    else if lines.length < 1 then none
    else some (.ok ((lines.drop 1).foldl appendProcess []))

/-- The parse as the specification words it: drop the header line and keep,
in order, one process for each remaining line with at least two fields. -/
def parseSpec (output : GoString) : List Process :=
  ((Split output).drop 1).filterMap fun line =>
    match Fields line with
    | pid :: name :: _ => some { Pid := pid, Name := name }
    | _ => none

/-- Body of `for _, process := range processes` in the process-list sampler
(line 245). -/
def setProcessGauge (v : GaugeVec) (process : Process) : Option GaugeVec :=
  GaugeVec.Set v [process.Pid, process.Name] (F64.fin 1)

/-- The `else` branch and the error branch of the process-list sampler
(lines 240-247), given what `getProcessList` returned; `none` when
`WithLabelValues` panics. -/
def processListUpdate (res : Except String (List Process)) (st : Registry) : Option Registry :=
  match res with
  | .error _ => some st
  | .ok processes =>
    (processes.foldlM setProcessGauge (MetricVec.Reset st.processListGauge)).map
      (fun v => { st with processListGauge := v })

/-- One cycle of the process-list sampler (lines 239-247), given the result
`cmdOutput` of running `ps`. -/
def processSamplerCycle (cmdOutput : Except String GoString) (st : Registry) :
    Option Registry :=
  (getProcessList cmdOutput).bind (fun res => processListUpdate res st)

/-- The states of the `process_list` family from the state `v` on, one more
after each call that line 245 makes for the processes of the list, until a
call panics. -/
def setStates : List Process → GaugeVec → List GaugeVec
  | [], v => [v]
  | process :: rest, v =>
    v :: (match setProcessGauge v process with
      | none => []
      | some v' => setStates rest v')

/-- The successive states of the `process_list` family in a cycle on the
list `processes` (lines 243-246): the family before the cycle, after `Reset`,
and after each `Set`.  No lock is held from one call to the next, so a scrape
served by another goroutine reads any one of these states. -/
def processCycleStates (processes : List Process) (v : GaugeVec) : List GaugeVec :=
  v :: setStates processes (MetricVec.Reset v)

/-! ## Sample inputs -/

/-- A core with 100 s of accounted time, 30 s of it idle. -/
def sampleTimes : TimesStat where
  CPU := "cpu0"
  User := 20
  System := 10
  Idle := 30
  Nice := 5
  Iowait := 8
  Irq := 2
  Softirq := 3
  Steal := 4
  Guest := 12
  GuestNice := 6

/-- A core for which every accounted component reads zero. -/
def zeroTimes : TimesStat where
  CPU := "cpu0"
  User := 0
  System := 0
  Idle := 0
  Nice := 0
  Iowait := 0
  Irq := 0
  Softirq := 0
  Steal := 0
  Guest := 0
  GuestNice := 0

/-- An output of `ps -e -o pid,comm`. -/
def samplePs : GoString :=
  str "  PID COMMAND\n    1 systemd\n   23 kthreadd extra\n\n oops\n"

/-- Two processes with text names. -/
def sampleProcesses : List Process :=
  [{ Pid := str "1", Name := str "systemd" }, { Pid := str "23", Name := str "kthreadd" }]

/-- A process whose name is the single byte `0xff`, which is not UTF-8. -/
def rawNameProcess : Process := { Pid := str "7", Name := [GoRune.bad 0xff] }

/-- A `process_list` family left by an earlier cycle. -/
def staleFamily : GaugeVec := [([str "9", str "old"], F64.fin 1)]

/-- A registry whose `process_list` family was filled by an earlier cycle. -/
def staleRegistry : Registry := { Registry.fresh with processListGauge := staleFamily }

/-- A reading of the disks in which `sda` has read 5 bytes in all. -/
def smallDiskReading : List DiskIOCountersStat := [{ Name := "sda", ReadBytes := 5, WriteBytes := 0 }]

/-- A reading of the interfaces in which 5 bytes were received in all;
`net.IOCounters(false)` reports one entry, named `all`. -/
def smallNetReading : List NetIOCountersStat := [{ Name := "all", BytesSent := 0, BytesRecv := 5 }]

/-- A reading of the disks in which `sda` has read `2^63` bytes in all. -/
def largeDiskReading : List DiskIOCountersStat :=
  [{ Name := "sda", ReadBytes := 2 ^ 63, WriteBytes := 0 }]

/-- An output of `ps` in which the name of process 7 is the byte `0xff`. -/
def rawPs : GoString := str "  PID COMMAND\n    7 " ++ [GoRune.bad 0xff] ++ str "\n"

/-- The code points for which `unicode.IsSpace` holds. -/
def spaceCodePoints : List Nat :=
  [0x09, 0x0A, 0x0B, 0x0C, 0x0D, 0x20, 0x85, 0xA0, 0x1680, 0x2000, 0x2001, 0x2002, 0x2003,
    0x2004, 0x2005, 0x2006, 0x2007, 0x2008, 0x2009, 0x200A, 0x2028, 0x2029, 0x202F, 0x205F,
    0x3000]

/-! ## Lemmas on strings and metric vectors -/

theorem ValidString_str (s : String) : ValidString (str s) = true := by
  simp [ValidString, str]

theorem validateLabelValues_str1 (a : String) : validateLabelValues [str a] = true := by
  simp [validateLabelValues, ValidString_str]

theorem validateLabelValues_str2 (a b : String) :
    validateLabelValues [str a, str b] = true := by
  simp [validateLabelValues, ValidString_str]

theorem MetricVec.get?_modify {α : Type} (v : MetricVec α) (lvs : List GoString) (zero : α)
    (f : α → α) (k : List GoString) :
    MetricVec.get? (MetricVec.modify v lvs zero f) k =
      if lvs = k then some (f ((MetricVec.get? v lvs).getD zero)) else MetricVec.get? v k := by
  induction v with
  | nil => simp [MetricVec.modify, MetricVec.get?]
  | cons e rest ih =>
    obtain ⟨k', x⟩ := e
    by_cases h : k' = lvs
    · subst h
      by_cases hk : k' = k <;> simp [MetricVec.modify, MetricVec.get?, hk]
    · by_cases hk : k' = k
      · subst hk
        have h' : ¬ lvs = k' := fun e => h e.symm
        simp [MetricVec.modify, MetricVec.get?, h, h']
      · simp [MetricVec.modify, MetricVec.get?, h, hk, ih]

theorem MetricVec.keys_modify_nodup {α : Type} (v : MetricVec α) (lvs : List GoString) (zero : α)
    (f : α → α) (hv : (MetricVec.keys v).Nodup) :
    (MetricVec.keys (MetricVec.modify v lvs zero f)).Nodup ∧
      ∀ k, k ∈ MetricVec.keys (MetricVec.modify v lvs zero f) ↔ k = lvs ∨ k ∈ MetricVec.keys v := by
  induction v with
  | nil => simp [MetricVec.modify, MetricVec.keys]
  | cons e rest ih =>
    obtain ⟨k', x⟩ := e
    simp only [MetricVec.keys, List.map_cons, List.nodup_cons] at hv
    obtain ⟨ih1, ih2⟩ := ih hv.2
    by_cases h : k' = lvs
    · subst h
      simp only [MetricVec.modify, if_true, MetricVec.keys, List.map_cons, List.nodup_cons,
        List.mem_cons]
      exact ⟨hv, fun k => by tauto⟩
    · simp only [MetricVec.modify, h, if_false, MetricVec.keys, List.map_cons, List.nodup_cons,
        List.mem_cons]
      refine ⟨⟨?_, ih1⟩, fun k => ?_⟩
      · intro hmem
        rcases (ih2 k').1 hmem with e | hm
        · exact h e
        · exact hv.1 hm
      · have := ih2 k
        simp only [MetricVec.keys] at this
        rw [this]
        tauto

theorem MetricVec.get?_isSome_iff {α : Type} (v : MetricVec α) (k : List GoString) :
    (MetricVec.get? v k).isSome ↔ k ∈ MetricVec.keys v := by
  induction v with
  | nil => simp [MetricVec.get?, MetricVec.keys]
  | cons e rest ih =>
    obtain ⟨k', x⟩ := e
    simp only [MetricVec.keys] at ih
    simp only [MetricVec.get?, MetricVec.keys, List.map_cons, List.mem_cons]
    by_cases h : k' = k
    · rw [if_pos h]
      exact ⟨fun _ => Or.inl h.symm, fun _ => rfl⟩
    · rw [if_neg h, ih]
      exact ⟨Or.inr, fun hk => hk.resolve_left (fun e => h e.symm)⟩

/-! ## CPU sampler -/

theorem setModeGauges_isSome (v : GaugeVec) (cpuTime : TimesStat) :
    ∃ v', setModeGauges v cpuTime = some v' := by
  simp [setModeGauges, GaugeVec.Set, validateLabelValues_str2]

theorem foldlM_setModeGauges_isSome (cpuTimes : List TimesStat) :
    ∀ v : GaugeVec, ∃ v', cpuTimes.foldlM setModeGauges v = some v' := by
  induction cpuTimes with
  | nil => intro v; exact ⟨v, rfl⟩
  | cons t rest ih =>
    intro v
    obtain ⟨v1, h1⟩ := setModeGauges_isSome v t
    obtain ⟨v', h'⟩ := ih v1
    exact ⟨v', by rw [List.foldlM_cons, h1]; exact h'⟩

/-- Unfolding of `collectCPUMetrics` on a list with a first entry. -/
theorem collectCPUMetrics_eq (cpuTimes : List TimesStat) (st : Registry) (first : TimesStat)
    (hfirst : cpuTimes[0]? = some first) :
    ∃ modeVec, collectCPUMetrics cpuTimes st = some { st with
      cpuModeGaugeVec := modeVec
      cpuUsageGauge := F64.mul (F64.fin 100)
        (F64.div (F64.sub (F64.fin (totalTime first)) (F64.fin first.Idle))
          (F64.fin (totalTime first)))
      cpuIdleGauge := F64.sub (F64.fin 100) (F64.mul (F64.fin 100)
        (F64.div (F64.sub (F64.fin (totalTime first)) (F64.fin first.Idle))
          (F64.fin (totalTime first)))) } := by
  obtain ⟨modeVec, hm⟩ := foldlM_setModeGauges_isSome cpuTimes st.cpuModeGaugeVec
  exact ⟨modeVec, by simp only [collectCPUMetrics, hfirst, hm]⟩

/-- C1: when the ten accounted components of the first entry of the CPU
sample (user, system, nice, idle, iowait, irq, softirq, steal, guest,
guest-nice) sum to `total > 0`, `collectCPUMetrics` returns, sets the usage
gauge to `100 * (total - idle) / total` and the idle gauge to `100 - usage`,
so the two gauges sum to 100; with `total = 100` and `idle = 30` the usage
gauge is 70 and the idle gauge is 30. -/
theorem collectCPUMetrics_usage (cpuTimes : List TimesStat) (st : Registry) (first : TimesStat)
    (total : ℚ) (hfirst : cpuTimes[0]? = some first)
    (htotal : total = first.User + first.System + first.Nice + first.Idle + first.Iowait
      + first.Irq + first.Softirq + first.Steal + first.Guest + first.GuestNice)
    (hpos : 0 < total) :
    ∃ st', collectCPUMetrics cpuTimes st = some st' ∧
      st'.cpuUsageGauge = F64.fin (100 * (total - first.Idle) / total) ∧
      st'.cpuIdleGauge = F64.fin (100 - 100 * (total - first.Idle) / total) ∧
      F64.add st'.cpuUsageGauge st'.cpuIdleGauge = F64.fin 100 ∧
      (total = 100 → first.Idle = 30 →
        st'.cpuUsageGauge = F64.fin 70 ∧ st'.cpuIdleGauge = F64.fin 30) := by
  have htt : totalTime first = total := by rw [htotal, totalTime]
  have hne : total ≠ 0 := ne_of_gt hpos
  have hu : F64.mul (F64.fin 100)
      (F64.div (F64.sub (F64.fin total) (F64.fin first.Idle)) (F64.fin total))
      = F64.fin (100 * (total - first.Idle) / total) := by
    simp [F64.mul, F64.div, F64.sub, F64.add, F64.neg, hne, sub_eq_add_neg, mul_div_assoc]
  obtain ⟨modeVec, hrun⟩ := collectCPUMetrics_eq cpuTimes st first hfirst
  rw [htt] at hrun
  refine ⟨_, hrun, ?_, ?_, ?_, ?_⟩
  · exact hu
  · simp only [hu]
    simp [F64.sub, F64.add, F64.neg, sub_eq_add_neg]
  · simp only [hu]
    simp [F64.sub, F64.add, F64.neg]
  · intro h100 h30
    simp only [hu]
    rw [h100, h30]
    simp only [F64.sub, F64.add, F64.neg]
    constructor <;> norm_num

/-- Witness of C1: a core whose ten components are 20, 10, 5, 30 (idle), 8,
2, 3, 4, 12 and 6 seconds gets the usage gauge 70 and the idle gauge 30. -/
theorem collectCPUMetrics_usage_witness :
    [sampleTimes][0]? = some sampleTimes ∧
      (100 : ℚ) = sampleTimes.User + sampleTimes.System + sampleTimes.Nice + sampleTimes.Idle
        + sampleTimes.Iowait + sampleTimes.Irq + sampleTimes.Softirq + sampleTimes.Steal
        + sampleTimes.Guest + sampleTimes.GuestNice ∧
      (0 : ℚ) < 100 ∧
      ∃ st', collectCPUMetrics [sampleTimes] Registry.fresh = some st' ∧
        st'.cpuUsageGauge = F64.fin 70 ∧ st'.cpuIdleGauge = F64.fin 30 := by
  have hsum : (100 : ℚ) = sampleTimes.User + sampleTimes.System + sampleTimes.Nice
      + sampleTimes.Idle + sampleTimes.Iowait + sampleTimes.Irq + sampleTimes.Softirq
      + sampleTimes.Steal + sampleTimes.Guest + sampleTimes.GuestNice := by
    norm_num [sampleTimes]
  obtain ⟨st', hrun, _, _, _, hval⟩ :=
    collectCPUMetrics_usage [sampleTimes] Registry.fresh sampleTimes 100 rfl hsum (by norm_num)
  exact ⟨rfl, hsum, by norm_num, st', hrun, hval rfl rfl⟩

/-- Counterexample to C2: on a sample whose components are all zero the
usage gauge receives `NaN`, not 0. -/
theorem collectCPUMetrics_zero_total_not_zero :
    zeroTimes.User + zeroTimes.System + zeroTimes.Nice + zeroTimes.Idle + zeroTimes.Iowait
        + zeroTimes.Irq + zeroTimes.Softirq + zeroTimes.Steal + zeroTimes.Guest
        + zeroTimes.GuestNice = 0 ∧
      (∃ st', collectCPUMetrics [zeroTimes] Registry.fresh = some st' ∧
        st'.cpuUsageGauge = F64.nan) ∧
      ¬ ∃ st', collectCPUMetrics [zeroTimes] Registry.fresh = some st' ∧
        st'.cpuUsageGauge = F64.fin 0 := by
  obtain ⟨modeVec, hrun⟩ := collectCPUMetrics_eq [zeroTimes] Registry.fresh zeroTimes rfl
  have hu : F64.mul (F64.fin 100)
      (F64.div (F64.sub (F64.fin (totalTime zeroTimes)) (F64.fin zeroTimes.Idle))
        (F64.fin (totalTime zeroTimes))) = F64.nan := by
    simp [totalTime, zeroTimes, F64.mul, F64.div, F64.sub, F64.add, F64.neg]
  rw [hu] at hrun
  refine ⟨by norm_num [zeroTimes], ⟨_, hrun, rfl⟩, ?_⟩
  rintro ⟨st', h, hzero⟩
  rw [hrun] at h
  simp only [Option.some.injEq] at h
  subst h
  simp at hzero

/-- C2, amended: when the ten components of the first entry sum to 0,
`collectCPUMetrics` divides unguarded and returns: the usage gauge receives
the result of the division by zero, which is `NaN` when the idle time is zero
too (as for non-negative components), `-Inf` when it is positive and `+Inf`
when it is negative, and in no case 0; the idle gauge, 100 minus that value,
is `NaN`, `+Inf` and `-Inf` respectively. -/
theorem collectCPUMetrics_zero_total (cpuTimes : List TimesStat) (st : Registry)
    (first : TimesStat) (hfirst : cpuTimes[0]? = some first)
    (hzero : first.User + first.System + first.Nice + first.Idle + first.Iowait
      + first.Irq + first.Softirq + first.Steal + first.Guest + first.GuestNice = 0) :
    ∃ st', collectCPUMetrics cpuTimes st = some st' ∧
      (first.Idle = 0 → st'.cpuUsageGauge = F64.nan ∧ st'.cpuIdleGauge = F64.nan) ∧
      (0 < first.Idle → st'.cpuUsageGauge = F64.negInf ∧ st'.cpuIdleGauge = F64.posInf) ∧
      (first.Idle < 0 → st'.cpuUsageGauge = F64.posInf ∧ st'.cpuIdleGauge = F64.negInf) ∧
      st'.cpuUsageGauge ≠ F64.fin 0 := by
  have htt : totalTime first = 0 := by rw [← hzero, totalTime]
  obtain ⟨modeVec, hrun⟩ := collectCPUMetrics_eq cpuTimes st first hfirst
  rw [htt] at hrun
  have hnan : first.Idle = 0 →
      F64.mul (F64.fin 100) (F64.div (F64.sub (F64.fin 0) (F64.fin first.Idle)) (F64.fin 0))
        = F64.nan := by
    intro hi
    simp [hi, F64.mul, F64.div, F64.sub, F64.add, F64.neg]
  have hneg : 0 < first.Idle →
      F64.mul (F64.fin 100) (F64.div (F64.sub (F64.fin 0) (F64.fin first.Idle)) (F64.fin 0))
        = F64.negInf := by
    intro hs
    have hi : ¬ first.Idle = 0 := ne_of_gt hs
    have hn : ¬ first.Idle < 0 := not_lt.mpr (le_of_lt hs)
    norm_num [hi, hn, F64.mul, F64.div, F64.sub, F64.add, F64.neg, F64.infOfSign]
  have hpos : first.Idle < 0 →
      F64.mul (F64.fin 100) (F64.div (F64.sub (F64.fin 0) (F64.fin first.Idle)) (F64.fin 0))
        = F64.posInf := by
    intro hs
    have hi : ¬ first.Idle = 0 := ne_of_lt hs
    norm_num [hi, hs, F64.mul, F64.div, F64.sub, F64.add, F64.neg, F64.infOfSign]
  refine ⟨_, hrun, ?_, ?_, ?_, ?_⟩
  · intro hi
    refine ⟨hnan hi, ?_⟩
    show F64.sub (F64.fin 100) (F64.mul (F64.fin 100)
      (F64.div (F64.sub (F64.fin 0) (F64.fin first.Idle)) (F64.fin 0))) = F64.nan
    rw [hnan hi]
    rfl
  · intro hs
    refine ⟨hneg hs, ?_⟩
    show F64.sub (F64.fin 100) (F64.mul (F64.fin 100)
      (F64.div (F64.sub (F64.fin 0) (F64.fin first.Idle)) (F64.fin 0))) = F64.posInf
    rw [hneg hs]
    rfl
  · intro hs
    refine ⟨hpos hs, ?_⟩
    show F64.sub (F64.fin 100) (F64.mul (F64.fin 100)
      (F64.div (F64.sub (F64.fin 0) (F64.fin first.Idle)) (F64.fin 0))) = F64.negInf
    rw [hpos hs]
    rfl
  · show F64.mul (F64.fin 100)
      (F64.div (F64.sub (F64.fin 0) (F64.fin first.Idle)) (F64.fin 0)) ≠ F64.fin 0
    rcases lt_trichotomy first.Idle 0 with h | h | h
    · rw [hpos h]
      intro hc
      cases hc
    · rw [hnan h]
      intro hc
      cases hc
    · rw [hneg h]
      intro hc
      cases hc

/-- Witness of the amended C2: a core whose components are all zero gets
`NaN` on both gauges. -/
theorem collectCPUMetrics_zero_total_witness :
    [zeroTimes][0]? = some zeroTimes ∧
      zeroTimes.User + zeroTimes.System + zeroTimes.Nice + zeroTimes.Idle + zeroTimes.Iowait
        + zeroTimes.Irq + zeroTimes.Softirq + zeroTimes.Steal + zeroTimes.Guest
        + zeroTimes.GuestNice = 0 ∧
      ∃ st', collectCPUMetrics [zeroTimes] Registry.fresh = some st' ∧
        st'.cpuUsageGauge = F64.nan ∧ st'.cpuIdleGauge = F64.nan := by
  have hsum : zeroTimes.User + zeroTimes.System + zeroTimes.Nice + zeroTimes.Idle
      + zeroTimes.Iowait + zeroTimes.Irq + zeroTimes.Softirq + zeroTimes.Steal
      + zeroTimes.Guest + zeroTimes.GuestNice = 0 := by
    norm_num [zeroTimes]
  obtain ⟨st', hrun, hnan, _⟩ :=
    collectCPUMetrics_zero_total [zeroTimes] Registry.fresh zeroTimes rfl hsum
  exact ⟨rfl, hsum, st', hrun, hnan rfl⟩

/-- C5: on the empty per-core list, which `cpu.Times` returns when the read
fails, `collectCPUMetrics` panics at `cpuTimes[0]` (index out of range); on a
non-empty list it returns. -/
theorem collectCPUMetrics_empty_panics :
    (∀ st : Registry, collectCPUMetrics [] st = none) ∧
      ∀ (t : TimesStat) (rest : List TimesStat) (st : Registry),
        (collectCPUMetrics (t :: rest) st).isSome = true := by
  constructor
  · intro st
    rfl
  · intro t rest st
    obtain ⟨modeVec, hrun⟩ := collectCPUMetrics_eq (t :: rest) st t (by simp)
    rw [hrun]
    rfl

/-! ## Rounding of `uint64` to `float64` -/

theorem roundAt_mul (e m : Nat) : roundAt e (m * 2 ^ e) = m * 2 ^ e := by
  have hpos : 0 < 2 ^ e := Nat.two_pow_pos _
  simp [roundAt, Nat.mul_div_cancel _ hpos, hpos]

theorem roundAt_cases (e n : Nat) :
    roundAt e n = n / 2 ^ e * 2 ^ e ∨ roundAt e n = (n / 2 ^ e + 1) * 2 ^ e := by
  unfold roundAt
  simp only []
  split
  · exact Or.inl rfl
  · exact Or.inr rfl

theorem roundAt_mono (e : Nat) {a b : Nat} (hab : a ≤ b) : roundAt e a ≤ roundAt e b := by
  have hpos : 0 < 2 ^ e := Nat.two_pow_pos _
  have hq : a / 2 ^ e ≤ b / 2 ^ e := Nat.div_le_div_right hab
  rcases Nat.lt_or_ge (a / 2 ^ e) (b / 2 ^ e) with hlt | hge
  · have h1 : roundAt e a ≤ (a / 2 ^ e + 1) * 2 ^ e := by
      rcases roundAt_cases e a with h | h
      · rw [h]
        exact Nat.mul_le_mul_right _ (Nat.le_succ _)
      · rw [h]
    have h2 : b / 2 ^ e * 2 ^ e ≤ roundAt e b := by
      rcases roundAt_cases e b with h | h
      · rw [h]
      · rw [h]
        exact Nat.mul_le_mul_right _ (Nat.le_succ _)
    have h3 : (a / 2 ^ e + 1) * 2 ^ e ≤ b / 2 ^ e * 2 ^ e := Nat.mul_le_mul_right _ hlt
    exact le_trans h1 (le_trans h3 h2)
  · have heq : a / 2 ^ e = b / 2 ^ e := le_antisymm hq hge
    have ha := Nat.div_add_mod a (2 ^ e)
    have hb := Nat.div_add_mod b (2 ^ e)
    rw [heq] at ha
    have hr : a % 2 ^ e ≤ b % 2 ^ e := by omega
    have hstep : b / 2 ^ e * 2 ^ e ≤ (b / 2 ^ e + 1) * 2 ^ e :=
      Nat.mul_le_mul_right _ (Nat.le_succ _)
    unfold roundAt
    simp only [heq]
    split <;> split
    · exact le_refl _
    · exact hstep
    · omega
    · exact le_refl _

theorem roundAt_le_pow (e k n : Nat) (hek : e ≤ k) (hn : n < 2 ^ k) : roundAt e n ≤ 2 ^ k := by
  have hpos : 0 < 2 ^ e := Nat.two_pow_pos _
  have hk : 2 ^ k = 2 ^ (k - e) * 2 ^ e := by rw [← pow_add, Nat.sub_add_cancel hek]
  have hq : n / 2 ^ e < 2 ^ (k - e) := by
    rw [Nat.div_lt_iff_lt_mul hpos, ← hk]
    exact hn
  have h1 : (n / 2 ^ e + 1) * 2 ^ e ≤ 2 ^ (k - e) * 2 ^ e := Nat.mul_le_mul_right _ hq
  rw [hk]
  rcases roundAt_cases e n with h | h
  · rw [h]
    exact le_trans (Nat.mul_le_mul_right _ (Nat.le_succ _)) h1
  · rw [h]
    exact h1

theorem roundAt_ge_pow (e k n : Nat) (hek : e ≤ k) (hn : 2 ^ k ≤ n) : 2 ^ k ≤ roundAt e n := by
  have hpos : 0 < 2 ^ e := Nat.two_pow_pos _
  have hk : 2 ^ k = 2 ^ (k - e) * 2 ^ e := by rw [← pow_add, Nat.sub_add_cancel hek]
  have hq : 2 ^ (k - e) ≤ n / 2 ^ e := by
    rw [Nat.le_div_iff_mul_le hpos, ← hk]
    exact hn
  have h1 : 2 ^ (k - e) * 2 ^ e ≤ n / 2 ^ e * 2 ^ e := Nat.mul_le_mul_right _ hq
  rw [hk]
  rcases roundAt_cases e n with h | h
  · rw [h]
    exact h1
  · rw [h]
    exact le_trans h1 (Nat.mul_le_mul_right _ (Nat.le_succ _))

theorem roundToFloat64_of_lt {n : Nat} (hn : n < 2 ^ 53) : roundToFloat64 n = n := by
  have he : Nat.log2 n - 52 = 0 := by
    by_cases h0 : n = 0
    · subst h0
      simp [Nat.log2]
    · have := (Nat.log2_lt h0 (k := 53)).2 hn
      omega
  have := roundAt_mul 0 n
  simp only [pow_zero, mul_one] at this
  rw [roundToFloat64, he, this]

theorem log2_eq_of_bounds {n l : Nat} (h1 : 2 ^ l ≤ n) (h2 : n < 2 ^ (l + 1)) :
    Nat.log2 n = l := by
  have h0 : n ≠ 0 := by
    have : 0 < 2 ^ l := Nat.two_pow_pos _
    omega
  have a := (Nat.le_log2 h0 (k := l)).2 h1
  have b := (Nat.log2_lt h0 (k := l + 1)).2 h2
  omega

theorem roundToFloat64_mono {a b : Nat} (hab : a ≤ b) : roundToFloat64 a ≤ roundToFloat64 b := by
  by_cases ha : a = 0
  · subst ha
    rw [roundToFloat64_of_lt (by norm_num : 0 < 2 ^ 53)]
    exact Nat.zero_le _
  · have hb : b ≠ 0 := by omega
    have hla : 2 ^ Nat.log2 a ≤ a := Nat.log2_self_le ha
    have hlb : 2 ^ Nat.log2 b ≤ b := Nat.log2_self_le hb
    have hle : Nat.log2 a ≤ Nat.log2 b := (Nat.le_log2 hb).2 (le_trans hla hab)
    by_cases he : Nat.log2 a - 52 = Nat.log2 b - 52
    · rw [roundToFloat64, roundToFloat64, he]
      exact roundAt_mono _ hab
    · have hlt : Nat.log2 a < Nat.log2 b := by omega
      have halt : a < 2 ^ Nat.log2 b := (Nat.log2_lt ha).1 hlt
      have h1 := roundAt_le_pow (Nat.log2 a - 52) (Nat.log2 b) a (by omega) halt
      have h2 := roundAt_ge_pow (Nat.log2 b - 52) (Nat.log2 b) b (by omega) hlb
      rw [roundToFloat64, roundToFloat64]
      exact le_trans h1 h2

/-- A significand of at most 53 bits times a power of two is kept as is. -/
theorem roundToFloat64_mul_pow (e m : Nat) (hm1 : 2 ^ 52 ≤ m) (hm2 : m ≤ 2 ^ 53) :
    roundToFloat64 (m * 2 ^ e) = m * 2 ^ e := by
  have hpos : 0 < 2 ^ e := Nat.two_pow_pos _
  by_cases hm : m < 2 ^ 53
  · have hlog : Nat.log2 (m * 2 ^ e) = e + 52 := by
      apply log2_eq_of_bounds
      · rw [pow_add, mul_comm (2 ^ e)]
        exact Nat.mul_le_mul_right _ hm1
      · rw [show e + 52 + 1 = 53 + e by omega, pow_add]
        exact Nat.mul_lt_mul_of_pos_right hm hpos
    rw [roundToFloat64, hlog, Nat.add_sub_cancel, roundAt_mul]
  · have hm53 : m = 2 ^ 53 := le_antisymm hm2 (Nat.le_of_not_lt hm)
    have hpow : m * 2 ^ e = 2 ^ (53 + e) := by rw [hm53, pow_add]
    have hlog : Nat.log2 (m * 2 ^ e) = 53 + e := by rw [hpow, Nat.log2_two_pow]
    have hform : m * 2 ^ e = 2 ^ 52 * 2 ^ (e + 1) := by
      rw [hm53, pow_succ]
      ring
    rw [roundToFloat64, hlog, show 53 + e - 52 = e + 1 by omega, hform, roundAt_mul]

theorem roundToFloat64_idem (n : Nat) : roundToFloat64 (roundToFloat64 n) = roundToFloat64 n := by
  by_cases hn : n < 2 ^ 53
  · rw [roundToFloat64_of_lt hn, roundToFloat64_of_lt hn]
  · have hn' : 2 ^ 53 ≤ n := Nat.le_of_not_lt hn
    have h0 : n ≠ 0 := by
      have : 0 < 2 ^ 53 := Nat.two_pow_pos _
      omega
    have hl : 53 ≤ Nat.log2 n := (Nat.le_log2 h0).2 hn'
    obtain ⟨e, he⟩ : ∃ e, Nat.log2 n = e + 52 := ⟨Nat.log2 n - 52, by omega⟩
    have hpos : 0 < 2 ^ e := Nat.two_pow_pos _
    have hlo : 2 ^ 52 * 2 ^ e ≤ n := by
      have := Nat.log2_self_le h0
      rw [he, pow_add, mul_comm] at this
      exact this
    have hhi : n < 2 ^ 53 * 2 ^ e := by
      have := Nat.lt_log2_self (n := n)
      rw [he, show e + 52 + 1 = 53 + e by omega, pow_add] at this
      exact this
    have hq1 : 2 ^ 52 ≤ n / 2 ^ e := (Nat.le_div_iff_mul_le hpos).2 hlo
    have hq2 : n / 2 ^ e < 2 ^ 53 := (Nat.div_lt_iff_lt_mul hpos).2 hhi
    have hround : roundToFloat64 n = roundAt e n := by
      rw [roundToFloat64, he, Nat.add_sub_cancel]
    rw [hround]
    rcases roundAt_cases e n with h | h
    · rw [h]
      exact roundToFloat64_mul_pow e _ hq1 (le_of_lt hq2)
    · rw [h]
      exact roundToFloat64_mul_pow e _ (by omega) (by omega)

theorem roundToFloat64_two_pow_63 : roundToFloat64 (2 ^ 63) = 2 ^ 63 := by
  have h : (2 : Nat) ^ 63 = 2 ^ 52 * 2 ^ 11 := by norm_num
  have := roundToFloat64_mul_pow 11 (2 ^ 52) (le_refl _) (by norm_num)
  rw [← h] at this
  exact this

/-! ## Counters -/

theorem float64OfUint64_nonneg (n : Nat) : ¬ float64OfUint64 n < 0 := by
  rw [float64OfUint64]
  exact not_lt.mpr (Nat.cast_nonneg _)

theorem uint64OfFloat64_natCast (outOfRange m : Nat) (hm : m < 2 ^ 64) :
    uint64OfFloat64 outOfRange (m : ℚ) = m := by
  have h : (m : ℚ) < 2 ^ 64 := by exact_mod_cast hm
  rw [uint64OfFloat64, if_pos h, Nat.floor_natCast]

/-- A reading that `float64` keeps below `2^64` is added to `valInt`, which
wraps at `2^64`. -/
theorem counterAdd_float64 (outOfRange : Nat) (c : Counter) (n : Nat)
    (hn : roundToFloat64 n < 2 ^ 64) :
    Counter.Add outOfRange c (float64OfUint64 n) =
      some { c with valInt := (c.valInt + roundToFloat64 n) % 2 ^ 64 } := by
  have h1 := float64OfUint64_nonneg n
  have h2 : uint64OfFloat64 outOfRange (float64OfUint64 n) = roundToFloat64 n :=
    uint64OfFloat64_natCast outOfRange _ hn
  have h3 : float64OfUint64 (roundToFloat64 n) = float64OfUint64 n := by
    rw [float64OfUint64, float64OfUint64, roundToFloat64_idem]
  simp only [Counter.Add, h1, if_false, h2, h3, if_true]

/-- The call `Add(float64(n))` never panics. -/
theorem counterAdd_float64_isSome (outOfRange : Nat) (c : Counter) (n : Nat) :
    ∃ c', Counter.Add outOfRange c (float64OfUint64 n) = some c' := by
  have h1 := float64OfUint64_nonneg n
  simp only [Counter.Add, h1, if_false]
  split
  · exact ⟨_, rfl⟩
  · exact ⟨_, rfl⟩

theorem Counter.get_mono_valInt (c : Counter) (d : Nat) :
    Counter.get c ≤ Counter.get { c with valInt := c.valInt + d } := by
  have h : roundToFloat64 c.valInt ≤ roundToFloat64 (c.valInt + d) :=
    roundToFloat64_mono (Nat.le_add_right _ _)
  have h' : (roundToFloat64 c.valInt : ℚ) ≤ (roundToFloat64 (c.valInt + d) : ℚ) := by
    exact_mod_cast h
  simp only [Counter.get, float64OfUint64]
  linarith

/-- One `Add(float64(n))`: it returns, and when `valInt` does not pass `2^64`
it grows by the converted reading. -/
theorem counterAdd_step (outOfRange : Nat) (c : Counter) (n : Nat) :
    ∃ c1, Counter.Add outOfRange c (float64OfUint64 n) = some c1 ∧
      (c.valInt + roundToFloat64 n < 2 ^ 64 →
        c1 = { c with valInt := c.valInt + roundToFloat64 n }) := by
  by_cases hn : roundToFloat64 n < 2 ^ 64
  · refine ⟨_, counterAdd_float64 outOfRange c n hn, fun h => ?_⟩
    rw [Nat.mod_eq_of_lt h]
  · obtain ⟨c1, h1⟩ := counterAdd_float64_isSome outOfRange c n
    exact ⟨c1, h1, fun h => absurd (by omega) hn⟩

theorem netFold_spec (outOfRange : Nat) (iface : String) (netStat : List NetIOCountersStat) :
    ∀ c : NetCounters,
      ∃ c', netStat.foldlM (netStatStep outOfRange iface) c = some c' ∧
        (c.networkReceiveBytesTotal.valInt + (recvAmounts iface netStat).sum < 2 ^ 64 →
          c'.networkReceiveBytesTotal = { c.networkReceiveBytesTotal with
            valInt := c.networkReceiveBytesTotal.valInt + (recvAmounts iface netStat).sum }) ∧
        (c.networkTransmitBytesTotal.valInt + (sentAmounts iface netStat).sum < 2 ^ 64 →
          c'.networkTransmitBytesTotal = { c.networkTransmitBytesTotal with
            valInt := c.networkTransmitBytesTotal.valInt + (sentAmounts iface netStat).sum }) := by
  induction netStat with
  | nil =>
    intro c
    exact ⟨c, rfl, fun _ => by simp [recvAmounts], fun _ => by simp [sentAmounts]⟩
  | cons ni rest ih =>
    intro c
    by_cases h : ni.Name = iface
    · obtain ⟨r1, hr1, hr1'⟩ :=
        counterAdd_step outOfRange c.networkReceiveBytesTotal ni.BytesRecv
      obtain ⟨t1, ht1, ht1'⟩ :=
        counterAdd_step outOfRange c.networkTransmitBytesTotal ni.BytesSent
      obtain ⟨c', hrun, hrx, htx⟩ :=
        ih { networkReceiveBytesTotal := r1, networkTransmitBytesTotal := t1 }
      have hstep : netStatStep outOfRange iface c ni =
          some { networkReceiveBytesTotal := r1, networkTransmitBytesTotal := t1 } := by
        simp [netStatStep, h, hr1, ht1]
      have hra : recvAmounts iface (ni :: rest) =
          roundToFloat64 ni.BytesRecv :: recvAmounts iface rest := by
        simp [recvAmounts, List.filter_cons, h]
      have hsa : sentAmounts iface (ni :: rest) =
          roundToFloat64 ni.BytesSent :: sentAmounts iface rest := by
        simp [sentAmounts, List.filter_cons, h]
      refine ⟨c', ?_, ?_, ?_⟩
      · rw [List.foldlM_cons, hstep]
        exact hrun
      · intro hlt
        rw [hra, List.sum_cons] at hlt ⊢
        have e1 := hr1' (by omega)
        subst e1
        have e2 := hrx (by simpa using (by omega : c.networkReceiveBytesTotal.valInt
          + roundToFloat64 ni.BytesRecv + (recvAmounts iface rest).sum < 2 ^ 64))
        rw [e2]
        simp [Nat.add_assoc]
      · intro hlt
        rw [hsa, List.sum_cons] at hlt ⊢
        have e1 := ht1' (by omega)
        subst e1
        have e2 := htx (by simpa using (by omega : c.networkTransmitBytesTotal.valInt
          + roundToFloat64 ni.BytesSent + (sentAmounts iface rest).sum < 2 ^ 64))
        rw [e2]
        simp [Nat.add_assoc]
    · obtain ⟨c', hrun, hrx, htx⟩ := ih c
      have hstep : netStatStep outOfRange iface c ni = some c := by
        simp [netStatStep, h]
      have hra : recvAmounts iface (ni :: rest) = recvAmounts iface rest := by
        simp [recvAmounts, List.filter_cons, h]
      have hsa : sentAmounts iface (ni :: rest) = sentAmounts iface rest := by
        simp [sentAmounts, List.filter_cons, h]
      refine ⟨c', ?_, ?_, ?_⟩
      · rw [List.foldlM_cons, hstep]
        exact hrun
      · rw [hra]
        exact hrx
      · rw [hsa]
        exact htx

/-- One `WithLabelValues(lvs...).Add(float64(n))` with valid label values. -/
theorem counterVecAdd_step (outOfRange : Nat) (v : CounterVec) (lvs : List GoString) (n : Nat)
    (hvalid : validateLabelValues lvs = true) :
    ∃ c1, Counter.Add outOfRange ((MetricVec.get? v lvs).getD Counter.zero)
          (float64OfUint64 n) = some c1 ∧
      CounterVec.Add outOfRange v lvs (float64OfUint64 n) =
        some (MetricVec.modify v lvs Counter.zero (fun _ => c1)) := by
  obtain ⟨c1, h1⟩ :=
    counterAdd_float64_isSome outOfRange ((MetricVec.get? v lvs).getD Counter.zero) n
  exact ⟨c1, h1, by simp [CounterVec.Add, hvalid, h1]⟩

theorem addAll_spec (outOfRange : Nat) (items : List (List GoString × Nat)) :
    (∀ it ∈ items, validateLabelValues it.1 = true) →
    ∀ v : CounterVec,
      ∃ v', CounterVec.addAll outOfRange v items = some v' ∧
        ∀ lvs,
          ((MetricVec.get? v lvs).isSome = true → (MetricVec.get? v' lvs).isSome = true) ∧
          (((MetricVec.get? v lvs).getD Counter.zero).valInt + (amountsFor lvs items).sum
              < 2 ^ 64 →
            (MetricVec.get? v' lvs).getD Counter.zero =
              { (MetricVec.get? v lvs).getD Counter.zero with
                valInt := ((MetricVec.get? v lvs).getD Counter.zero).valInt
                  + (amountsFor lvs items).sum }) := by
  induction items with
  | nil =>
    intro _ v
    exact ⟨v, rfl, fun lvs => ⟨id, fun _ => by simp [amountsFor]⟩⟩
  | cons it rest ih =>
    intro hvalid v
    have hit : validateLabelValues it.1 = true := hvalid it (List.mem_cons_self _ _)
    have hrest : ∀ x ∈ rest, validateLabelValues x.1 = true :=
      fun x hx => hvalid x (List.mem_cons_of_mem _ hx)
    obtain ⟨c1, hc1, hadd⟩ := counterVecAdd_step outOfRange v it.1 it.2 hit
    obtain ⟨c1', hc1', hgrow⟩ :=
      counterAdd_step outOfRange ((MetricVec.get? v it.1).getD Counter.zero) it.2
    have hsame : c1' = c1 := by
      rw [hc1] at hc1'
      exact (Option.some.inj hc1').symm
    subst hsame
    obtain ⟨v', hrun, hspec⟩ :=
      ih hrest (MetricVec.modify v it.1 Counter.zero (fun _ => c1'))
    refine ⟨v', ?_, fun lvs => ?_⟩
    · rw [CounterVec.addAll, List.foldlM_cons, hadd]
      exact hrun
    · obtain ⟨hsome, hval⟩ := hspec lvs
      rw [MetricVec.get?_modify] at hsome hval
      by_cases hk : it.1 = lvs
      · subst hk
        have ham : amountsFor it.1 (it :: rest) =
            roundToFloat64 it.2 :: amountsFor it.1 rest := by
          simp [amountsFor, List.filter_cons]
        rw [if_pos rfl] at hsome hval
        refine ⟨fun _ => hsome rfl, fun hlt => ?_⟩
        rw [ham, List.sum_cons] at hlt ⊢
        have e1 := hgrow (by omega)
        subst e1
        simp only [Option.getD_some] at hval
        rw [hval (by omega)]
        simp [Nat.add_assoc]
      · have ham : amountsFor lvs (it :: rest) = amountsFor lvs rest := by
          simp [amountsFor, List.filter_cons, hk]
        rw [if_neg hk] at hsome hval
        rw [ham]
        exact ⟨hsome, hval⟩

theorem readItems_valid (diskStats : List DiskIOCountersStat) :
    ∀ it ∈ readItems diskStats, validateLabelValues it.1 = true := by
  intro it hit
  simp only [readItems, List.mem_map] at hit
  obtain ⟨stat, _, rfl⟩ := hit
  exact validateLabelValues_str1 _

theorem writeItems_valid (diskStats : List DiskIOCountersStat) :
    ∀ it ∈ writeItems diskStats, validateLabelValues it.1 = true := by
  intro it hit
  simp only [writeItems, List.mem_map] at hit
  obtain ⟨stat, _, rfl⟩ := hit
  exact validateLabelValues_str1 _

theorem diskFold_eq (outOfRange : Nat) (diskStats : List DiskIOCountersStat) :
    ∀ cs : CounterVec × CounterVec,
      ∃ rd' wr', diskStats.foldlM (diskStatStep outOfRange) cs = some (rd', wr') ∧
        CounterVec.addAll outOfRange cs.1 (readItems diskStats) = some rd' ∧
        CounterVec.addAll outOfRange cs.2 (writeItems diskStats) = some wr' := by
  induction diskStats with
  | nil =>
    intro cs
    exact ⟨cs.1, cs.2, rfl, rfl, rfl⟩
  | cons stat rest ih =>
    intro cs
    obtain ⟨r1, _, hr1⟩ := counterVecAdd_step outOfRange cs.1 [str stat.Name] stat.ReadBytes
      (validateLabelValues_str1 _)
    obtain ⟨w1, _, hw1⟩ := counterVecAdd_step outOfRange cs.2 [str stat.Name] stat.WriteBytes
      (validateLabelValues_str1 _)
    obtain ⟨rd', wr', hrun, hrd, hwr⟩ := ih
      (MetricVec.modify cs.1 [str stat.Name] Counter.zero (fun _ => r1),
        MetricVec.modify cs.2 [str stat.Name] Counter.zero (fun _ => w1))
    have hstep : diskStatStep outOfRange cs stat =
        some (MetricVec.modify cs.1 [str stat.Name] Counter.zero (fun _ => r1),
          MetricVec.modify cs.2 [str stat.Name] Counter.zero (fun _ => w1)) := by
      simp [diskStatStep, hr1, hw1]
    refine ⟨rd', wr', ?_, ?_, ?_⟩
    · rw [List.foldlM_cons, hstep]
      exact hrun
    · simp only [readItems, List.map_cons, CounterVec.addAll, List.foldlM_cons, hr1]
      exact hrd
    · simp only [writeItems, List.map_cons, CounterVec.addAll, List.foldlM_cons, hw1]
      exact hwr

theorem CounterVec.value_mono_of_grow (v v' : CounterVec) (lvs : List GoString) (d : Nat)
    (h : (MetricVec.get? v' lvs).getD Counter.zero =
      { (MetricVec.get? v lvs).getD Counter.zero with
        valInt := ((MetricVec.get? v lvs).getD Counter.zero).valInt + d }) :
    CounterVec.value v lvs ≤ CounterVec.value v' lvs := by
  rw [CounterVec.value, CounterVec.value, h]
  exact Counter.get_mono_valInt _ d

/-- C7, amended: for every registry state and every reading of the source,
one cycle of the disk sampler and one cycle of a network sampler return: each
`Add` receives `float64` of a `uint64`, never a negative amount, and no
counter disappears.  Whenever the 64-bit integer accumulator of a byte
counter does not overflow in the cycle, that is when the accumulator plus the
amounts the cycle adds to it stays below `2^64`, the accumulator grows by
exactly these amounts and the counter is at least what it was before the
cycle. -/
theorem byte_counters_never_decrease (outOfRange : Nat) (diskStats : List DiskIOCountersStat)
    (st : Registry) (iface : String) (netStat : List NetIOCountersStat) (c : NetCounters) :
    (∃ st', diskSamplerCycle outOfRange diskStats st = some st' ∧
      ∀ lvs,
        ((MetricVec.get? st.diskReadBytesTotal lvs).isSome = true →
          (MetricVec.get? st'.diskReadBytesTotal lvs).isSome = true) ∧
        ((MetricVec.get? st.diskWrittenBytesTotal lvs).isSome = true →
          (MetricVec.get? st'.diskWrittenBytesTotal lvs).isSome = true) ∧
        (((MetricVec.get? st.diskReadBytesTotal lvs).getD Counter.zero).valInt
            + (amountsFor lvs (readItems diskStats)).sum < 2 ^ 64 →
          (MetricVec.get? st'.diskReadBytesTotal lvs).getD Counter.zero =
              { (MetricVec.get? st.diskReadBytesTotal lvs).getD Counter.zero with
                valInt := ((MetricVec.get? st.diskReadBytesTotal lvs).getD Counter.zero).valInt
                  + (amountsFor lvs (readItems diskStats)).sum } ∧
            CounterVec.value st.diskReadBytesTotal lvs
              ≤ CounterVec.value st'.diskReadBytesTotal lvs) ∧
        (((MetricVec.get? st.diskWrittenBytesTotal lvs).getD Counter.zero).valInt
            + (amountsFor lvs (writeItems diskStats)).sum < 2 ^ 64 →
          (MetricVec.get? st'.diskWrittenBytesTotal lvs).getD Counter.zero =
              { (MetricVec.get? st.diskWrittenBytesTotal lvs).getD Counter.zero with
                valInt :=
                  ((MetricVec.get? st.diskWrittenBytesTotal lvs).getD Counter.zero).valInt
                    + (amountsFor lvs (writeItems diskStats)).sum } ∧
            CounterVec.value st.diskWrittenBytesTotal lvs
              ≤ CounterVec.value st'.diskWrittenBytesTotal lvs)) ∧
    (∃ c', netSamplerCycle outOfRange iface netStat c = some c' ∧
      (c.networkReceiveBytesTotal.valInt + (recvAmounts iface netStat).sum < 2 ^ 64 →
        c'.networkReceiveBytesTotal = { c.networkReceiveBytesTotal with
            valInt := c.networkReceiveBytesTotal.valInt + (recvAmounts iface netStat).sum } ∧
          c.networkReceiveBytesTotal.get ≤ c'.networkReceiveBytesTotal.get) ∧
      (c.networkTransmitBytesTotal.valInt + (sentAmounts iface netStat).sum < 2 ^ 64 →
        c'.networkTransmitBytesTotal = { c.networkTransmitBytesTotal with
            valInt := c.networkTransmitBytesTotal.valInt + (sentAmounts iface netStat).sum } ∧
          c.networkTransmitBytesTotal.get ≤ c'.networkTransmitBytesTotal.get)) := by
  constructor
  · obtain ⟨rd', wr', hrun, hrd, hwr⟩ :=
      diskFold_eq outOfRange diskStats (st.diskReadBytesTotal, st.diskWrittenBytesTotal)
    obtain ⟨rd2, hrd2, hrspec⟩ :=
      addAll_spec outOfRange (readItems diskStats) (readItems_valid diskStats)
        st.diskReadBytesTotal
    obtain ⟨wr2, hwr2, hwspec⟩ :=
      addAll_spec outOfRange (writeItems diskStats) (writeItems_valid diskStats)
        st.diskWrittenBytesTotal
    have e1 : rd2 = rd' := by
      rw [hrd] at hrd2
      exact (Option.some.inj hrd2).symm
    have e2 : wr2 = wr' := by
      rw [hwr] at hwr2
      exact (Option.some.inj hwr2).symm
    subst e1
    subst e2
    refine ⟨{ st with diskReadBytesTotal := rd2, diskWrittenBytesTotal := wr2 }, ?_, ?_⟩
    · simp only [diskSamplerCycle, hrun, Option.map_some']
    · intro lvs
      refine ⟨(hrspec lvs).1, (hwspec lvs).1, fun h => ?_, fun h => ?_⟩
      · exact ⟨(hrspec lvs).2 h, CounterVec.value_mono_of_grow _ _ lvs _ ((hrspec lvs).2 h)⟩
      · exact ⟨(hwspec lvs).2 h, CounterVec.value_mono_of_grow _ _ lvs _ ((hwspec lvs).2 h)⟩
  · obtain ⟨c', hrun, hrx, htx⟩ := netFold_spec outOfRange iface netStat c
    refine ⟨c', hrun, fun h => ⟨hrx h, ?_⟩, fun h => ⟨htx h, ?_⟩⟩
    · rw [hrx h]
      exact Counter.get_mono_valInt _ _
    · rw [htx h]
      exact Counter.get_mono_valInt _ _

theorem CounterVec.value_modify_same (v : CounterVec) (lvs : List GoString) (c : Counter) :
    CounterVec.value (MetricVec.modify v lvs Counter.zero (fun _ => c)) lvs = Counter.get c := by
  simp [CounterVec.value, MetricVec.get?_modify]

/-- One cycle of the disk sampler on a reading of a single device whose
totals `float64` keeps below `2^64`. -/
theorem diskSamplerCycle_single (outOfRange : Nat) (name : String) (r w : Nat) (st : Registry)
    (hr : roundToFloat64 r < 2 ^ 64) (hw : roundToFloat64 w < 2 ^ 64) :
    diskSamplerCycle outOfRange [{ Name := name, ReadBytes := r, WriteBytes := w }] st =
      some { st with
        diskReadBytesTotal := MetricVec.modify st.diskReadBytesTotal [str name] Counter.zero
          (fun _ => { (MetricVec.get? st.diskReadBytesTotal [str name]).getD Counter.zero with
            valInt := (((MetricVec.get? st.diskReadBytesTotal [str name]).getD
              Counter.zero).valInt + roundToFloat64 r) % 2 ^ 64 })
        diskWrittenBytesTotal := MetricVec.modify st.diskWrittenBytesTotal [str name] Counter.zero
          (fun _ => { (MetricVec.get? st.diskWrittenBytesTotal [str name]).getD Counter.zero with
            valInt := (((MetricVec.get? st.diskWrittenBytesTotal [str name]).getD
              Counter.zero).valInt + roundToFloat64 w) % 2 ^ 64 }) } := by
  simp [diskSamplerCycle, diskStatStep, CounterVec.Add, validateLabelValues_str1,
    counterAdd_float64 _ _ _ hr, counterAdd_float64 _ _ _ hw]

/-- C6: two cycles in which the source reports the same cumulative total of
5 bytes leave the disk read counter, and likewise the receive counter of the
network sampler, at 10 rather than at the latest total 5: every cycle adds
the whole cumulative total. -/
theorem byte_counters_add_whole_total :
    ∀ outOfRange : Nat,
      (diskSamplerRun outOfRange [smallDiskReading, smallDiskReading] Registry.fresh).map
          (fun st => CounterVec.value st.diskReadBytesTotal [str "sda"]) = some 10 ∧
        (netSamplerRun outOfRange "all" [smallNetReading, smallNetReading]
            { networkReceiveBytesTotal := Counter.zero,
              networkTransmitBytesTotal := Counter.zero }).map
          (fun c => Counter.get c.networkReceiveBytesTotal) = some 10 := by
  intro outOfRange
  have h5 : roundToFloat64 5 = 5 := roundToFloat64_of_lt (by norm_num)
  have h0 : roundToFloat64 0 = 0 := roundToFloat64_of_lt (by norm_num)
  have h10 : roundToFloat64 10 = 10 := roundToFloat64_of_lt (by norm_num)
  have hr : roundToFloat64 5 < 2 ^ 64 := by rw [h5]; norm_num
  have hw : roundToFloat64 0 < 2 ^ 64 := by rw [h0]; norm_num
  constructor
  · simp only [diskSamplerRun, smallDiskReading, List.foldlM_cons, List.foldlM_nil,
      diskSamplerCycle_single outOfRange "sda" 5 0 _ hr hw, Option.some_bind,
      Option.bind_eq_bind, Option.pure_def, Option.map_some', CounterVec.value_modify_same]
    simp [Counter.get, float64OfUint64, MetricVec.get?_modify,
      Registry.fresh, MetricVec.get?, Counter.zero, h5, h0, h10]
  · simp only [netSamplerRun, netSamplerCycle, smallNetReading, List.foldlM_cons,
      List.foldlM_nil, netStatStep, if_true, counterAdd_float64 _ _ _ hr,
      counterAdd_float64 _ _ _ hw]
    simp [Counter.get, float64OfUint64, Counter.zero, h5, h0, h10]

theorem largeReading_first_cycle (outOfRange : Nat) :
    diskSamplerCycle outOfRange largeDiskReading Registry.fresh =
      some { Registry.fresh with
        diskReadBytesTotal := [([str "sda"], { valBits := 0, valInt := 2 ^ 63 })]
        diskWrittenBytesTotal := [([str "sda"], { valBits := 0, valInt := 0 })] } := by
  have h63 := roundToFloat64_two_pow_63
  have h0 : roundToFloat64 0 = 0 := roundToFloat64_of_lt (by norm_num)
  have hr : roundToFloat64 (2 ^ 63) < 2 ^ 64 := by rw [h63]; norm_num
  have hw : roundToFloat64 0 < 2 ^ 64 := by rw [h0]; norm_num
  rw [largeDiskReading, diskSamplerCycle_single outOfRange "sda" (2 ^ 63) 0 _ hr hw, h63, h0]
  simp only [Registry.fresh, MetricVec.get?, MetricVec.modify, Option.getD_none, Counter.zero]
  norm_num

theorem largeReading_second_cycle (outOfRange : Nat) :
    diskSamplerCycle outOfRange largeDiskReading
        { Registry.fresh with
          diskReadBytesTotal := [([str "sda"], { valBits := 0, valInt := 2 ^ 63 })]
          diskWrittenBytesTotal := [([str "sda"], { valBits := 0, valInt := 0 })] } =
      some { Registry.fresh with
        diskReadBytesTotal := [([str "sda"], { valBits := 0, valInt := 0 })]
        diskWrittenBytesTotal := [([str "sda"], { valBits := 0, valInt := 0 })] } := by
  have h63 := roundToFloat64_two_pow_63
  have h0 : roundToFloat64 0 = 0 := roundToFloat64_of_lt (by norm_num)
  have hr : roundToFloat64 (2 ^ 63) < 2 ^ 64 := by rw [h63]; norm_num
  have hw : roundToFloat64 0 < 2 ^ 64 := by rw [h0]; norm_num
  rw [largeDiskReading, diskSamplerCycle_single outOfRange "sda" (2 ^ 63) 0 _ hr hw, h63, h0]
  simp only [Registry.fresh, MetricVec.get?, MetricVec.modify, if_true, Option.getD_some]
  norm_num

/-- Counterexample to C7: from the fresh registry, a first cycle on a reading
of `2^63` bytes brings the disk read counter to `2^63`, and a second cycle on
the same reading brings it to 0: the integer accumulator wraps at `2^64`. -/
theorem byte_counter_wraps :
    ∃ st1 st2,
      diskSamplerCycle 0 largeDiskReading Registry.fresh = some st1 ∧
      diskSamplerCycle 0 largeDiskReading st1 = some st2 ∧
      CounterVec.value st1.diskReadBytesTotal [str "sda"] = 2 ^ 63 ∧
      CounterVec.value st2.diskReadBytesTotal [str "sda"] = 0 ∧
      CounterVec.value st2.diskReadBytesTotal [str "sda"]
        < CounterVec.value st1.diskReadBytesTotal [str "sda"] := by
  have h0 : roundToFloat64 0 = 0 := roundToFloat64_of_lt (by norm_num)
  have hv1 : CounterVec.value [([str "sda"], { valBits := 0, valInt := 2 ^ 63 })] [str "sda"]
      = 2 ^ 63 := by
    simp only [CounterVec.value, MetricVec.get?, if_true, Option.getD_some, Counter.get,
      float64OfUint64, roundToFloat64_two_pow_63]
    norm_num
  have hv2 : CounterVec.value [([str "sda"], { valBits := 0, valInt := 0 })] [str "sda"]
      = 0 := by
    simp only [CounterVec.value, MetricVec.get?, if_true, Option.getD_some, Counter.get,
      float64OfUint64, h0]
    norm_num
  refine ⟨_, _, largeReading_first_cycle 0, largeReading_second_cycle 0, hv1, hv2, ?_⟩
  show CounterVec.value [([str "sda"], { valBits := 0, valInt := 0 })] [str "sda"]
    < CounterVec.value [([str "sda"], { valBits := 0, valInt := 2 ^ 63 })] [str "sda"]
  rw [hv1, hv2]
  norm_num

/-- Witness of the amended C7: on the fresh registry a reading of 5 bytes
does not overflow the accumulator, and the counter does not decrease. -/
theorem byte_counters_never_decrease_witness :
    ∃ st', diskSamplerCycle 0 smallDiskReading Registry.fresh = some st' ∧
      CounterVec.value Registry.fresh.diskReadBytesTotal [str "sda"]
        ≤ CounterVec.value st'.diskReadBytesTotal [str "sda"] := by
  obtain ⟨⟨st', hrun, hmono⟩, _⟩ :=
    byte_counters_never_decrease 0 smallDiskReading Registry.fresh "all" smallNetReading
      { networkReceiveBytesTotal := Counter.zero, networkTransmitBytesTotal := Counter.zero }
  refine ⟨st', hrun, ((hmono [str "sda"]).2.2.1 ?_).2⟩
  have h5 : roundToFloat64 5 = 5 := roundToFloat64_of_lt (by norm_num)
  simp [amountsFor, readItems, smallDiskReading, Registry.fresh, MetricVec.get?, Counter.zero,
    h5]

/-! ## Splitting the output of `ps` -/

theorem Split_cons_of_ne (r : GoRune) (rs : GoString) (h : ¬ r = GoRune.char '\n') :
    Split (r :: rs) =
      match Split rs with
      | [] => [[r]]
      | l :: ls => (r :: l) :: ls := by
  simp only [Split, h, if_false]

theorem Split_ne_nil (s : GoString) : Split s ≠ [] := by
  cases s with
  | nil => simp [Split]
  | cons r rs =>
    by_cases h : r = GoRune.char '\n'
    · simp [Split, h]
    · cases hs : Split rs <;> simp [Split, h, hs]

theorem Split_length (s : GoString) : (Split s).length = s.count (GoRune.char '\n') + 1 := by
  induction s with
  | nil => simp [Split]
  | cons r rs ih =>
    by_cases h : r = GoRune.char '\n'
    · simp [Split, h, ih]
    · cases hs : Split rs with
      | nil => exact absurd hs (Split_ne_nil rs)
      | cons l ls =>
        rw [hs] at ih
        simp only [Split, h, if_false, hs, List.length_cons] at ih ⊢
        rw [List.count_cons_of_ne (fun e => h e.symm)]
        exact ih

theorem Split_intercalate (s : GoString) :
    List.intercalate [GoRune.char '\n'] (Split s) = s := by
  induction s with
  | nil => simp [Split, List.intercalate]
  | cons r rs ih =>
    cases hs : Split rs with
    | nil => exact absurd hs (Split_ne_nil rs)
    | cons l ls =>
      rw [hs] at ih
      by_cases h : r = GoRune.char '\n'
      · simp only [Split, h, if_true, hs]
        simp only [List.intercalate, List.intersperse, List.flatten_cons, List.nil_append,
          List.singleton_append] at ih ⊢
        rw [ih]
      · simp only [Split, h, if_false, hs]
        cases ls with
        | nil =>
          simp only [List.intercalate, List.intersperse, List.flatten_cons, List.flatten_nil,
            List.append_nil] at ih ⊢
          rw [ih]
        | cons l2 ls2 =>
          simp only [List.intercalate, List.intersperse, List.flatten_cons, List.cons_append]
            at ih ⊢
          rw [ih]

theorem Split_no_newline (s : GoString) : ∀ l ∈ Split s, GoRune.char '\n' ∉ l := by
  induction s with
  | nil => simp [Split]
  | cons r rs ih =>
    by_cases h : r = GoRune.char '\n'
    · intro l hl
      simp only [Split, h, if_true, List.mem_cons] at hl
      rcases hl with rfl | hl
      · simp
      · exact ih l hl
    · cases hs : Split rs with
      | nil => exact absurd hs (Split_ne_nil rs)
      | cons l0 ls =>
        rw [hs] at ih
        intro l hl
        simp only [Split, h, if_false, hs, List.mem_cons] at hl
        rcases hl with rfl | hl
        · intro hmem
          rcases List.mem_cons.1 hmem with e | hm
          · exact h e.symm
          · exact ih l0 (List.mem_cons_self _ _) hm
        · exact ih l (List.mem_cons_of_mem _ hl)

theorem Split_append_newline (l r : GoString) (hl : GoRune.char '\n' ∉ l) :
    Split (l ++ GoRune.char '\n' :: r) = l :: Split r := by
  induction l with
  | nil => simp [Split]
  | cons c cs ih =>
    have hc : ¬ c = GoRune.char '\n' := fun e => hl (by simp [e])
    have hcs : GoRune.char '\n' ∉ cs := fun hm => hl (List.mem_cons_of_mem _ hm)
    rw [List.cons_append, Split_cons_of_ne _ _ hc, ih hcs]

theorem Split_of_no_newline (l : GoString) (hl : GoRune.char '\n' ∉ l) : Split l = [l] := by
  induction l with
  | nil => simp [Split]
  | cons c cs ih =>
    have hc : ¬ c = GoRune.char '\n' := fun e => hl (by simp [e])
    have hcs : GoRune.char '\n' ∉ cs := fun hm => hl (List.mem_cons_of_mem _ hm)
    rw [Split_cons_of_ne _ _ hc, ih hcs]

/-! ## Cutting a line into fields -/

theorem isSpace_iff (c : Char) : isSpace c = true ↔ c.toNat ∈ spaceCodePoints := by
  simp only [isSpace, spaceCodePoints, Bool.or_eq_true, Bool.and_eq_true, decide_eq_true_eq,
    List.mem_cons, List.mem_singleton, List.not_mem_nil, or_false]
  omega

theorem fieldsAux_word (w : GoString) (hw : ∀ r ∈ w, isSpaceRune r = false) :
    ∀ rest cur : GoString, fieldsAux (w ++ rest) cur = fieldsAux rest (w.reverse ++ cur) := by
  induction w with
  | nil => intro rest cur; simp
  | cons r rs ih =>
    intro rest cur
    have hr : isSpaceRune r = false := hw r (List.mem_cons_self _ _)
    have hrs : ∀ x ∈ rs, isSpaceRune x = false := fun x hx => hw x (List.mem_cons_of_mem _ hx)
    rw [List.cons_append, fieldsAux]
    simp only [hr, Bool.false_eq_true, if_false]
    rw [ih hrs]
    simp

theorem Fields_nil : Fields [] = [] := by
  simp [Fields, fieldsAux]

theorem Fields_space_cons (r : GoRune) (rest : GoString) (hr : isSpaceRune r = true) :
    Fields (r :: rest) = Fields rest := by
  simp [Fields, fieldsAux, hr]

theorem Fields_word (w : GoString) (hne : w ≠ []) (hw : ∀ r ∈ w, isSpaceRune r = false) :
    Fields w = [w] := by
  have := fieldsAux_word w hw [] []
  simp only [List.append_nil] at this
  rw [Fields, this]
  simp [fieldsAux, hne]

theorem Fields_word_space (w : GoString) (r : GoRune) (rest : GoString) (hne : w ≠ [])
    (hw : ∀ x ∈ w, isSpaceRune x = false) (hr : isSpaceRune r = true) :
    Fields (w ++ r :: rest) = w :: Fields rest := by
  have := fieldsAux_word w hw (r :: rest) []
  simp only [List.append_nil] at this
  rw [Fields, this]
  simp [fieldsAux, hr, hne, Fields]

theorem appendProcess_eq (processes : List Process) (line : GoString) :
    appendProcess processes line =
      processes ++ (match Fields line with
        | pid :: name :: _ => [{ Pid := pid, Name := name }]
        | _ => []) := by
  have aux : ∀ fs : List GoString,
      (if h : fs.length ≥ 2 then processes ++ [({ Pid := fs[0], Name := fs[1] } : Process)]
        else processes) =
        processes ++ (match fs with
          | pid :: name :: _ => [{ Pid := pid, Name := name }]
          | _ => []) := by
    intro fs
    rcases fs with _ | ⟨a, _ | ⟨b, t⟩⟩ <;> simp
  exact aux (Fields line)

theorem foldl_appendProcess (lines : List GoString) :
    ∀ processes : List Process,
      lines.foldl appendProcess processes =
        processes ++ lines.filterMap (fun line =>
          match Fields line with
          | pid :: name :: _ => some { Pid := pid, Name := name }
          | _ => none) := by
  induction lines with
  | nil => intro processes; simp
  | cons line rest ih =>
    intro processes
    rw [List.foldl_cons, ih, appendProcess_eq, List.filterMap_cons]
    rcases hf : Fields line with _ | ⟨a, _ | ⟨b, t⟩⟩ <;> simp

theorem Split_length_pos (output : GoString) : 1 ≤ (Split output).length := by
  rw [Split_length]
  omega

theorem getProcessList_ok (output : GoString) :
    getProcessList (.ok output) = some (.ok (parseSpec output)) := by
  have hpos := Split_length_pos output
  have h1 : ¬ ((Split output).length : Int) - 1 < 0 := by omega
  have h2 : ¬ (Split output).length < 1 := by omega
  simp only [getProcessList, h1, h2, if_false, foldl_appendProcess, List.nil_append, parseSpec]

theorem parseSpec_samplePs : parseSpec samplePs = sampleProcesses := by
  decide

/-! ## The parse of `getProcessList` -/

/-- C9: on a successful output of `ps`, `getProcessList` returns without
error the parse the specification describes.  The output is split at its
newlines: the lines hold no newline and, joined by newlines, give the output
back.  The first line is dropped.  A line is cut into its maximal runs
without a space (a space being one of the code points of `unicode.IsSpace`):
leading spaces are skipped and a run ends at the next space or at the end of
the line.  Each remaining line with at least two fields contributes, in
order, the process made of its first two fields, the other lines
contributing nothing, so the result has at most (number of lines - 1)
entries.  On the output `  PID COMMAND`, `    1 systemd`,
`   23 kthreadd extra`, an empty line and ` oops`, the result is the two
processes `(1, systemd)` and `(23, kthreadd)`. -/
theorem getProcessList_parse (output : GoString) :
    getProcessList (.ok output) = some (.ok (parseSpec output)) ∧
    (parseSpec output).length ≤ (Split output).length - 1 ∧
    List.intercalate [GoRune.char '\n'] (Split output) = output ∧
    (∀ line ∈ Split output, GoRune.char '\n' ∉ line) ∧
    Fields [] = [] ∧
    (∀ (r : GoRune) (rest : GoString), isSpaceRune r = true →
      Fields (r :: rest) = Fields rest) ∧
    (∀ w : GoString, w ≠ [] → (∀ x ∈ w, isSpaceRune x = false) → Fields w = [w]) ∧
    (∀ (w : GoString) (r : GoRune) (rest : GoString), w ≠ [] →
      (∀ x ∈ w, isSpaceRune x = false) → isSpaceRune r = true →
      Fields (w ++ r :: rest) = w :: Fields rest) ∧
    (∀ c : Char, isSpaceRune (GoRune.char c) = true ↔ c.toNat ∈ spaceCodePoints) ∧
    (∀ b : UInt8, isSpaceRune (GoRune.bad b) = false) ∧
    (∀ (pre : List GoString) (line : GoString) (post : List GoString),
      (Split output).drop 1 = pre ++ line :: post →
      parseSpec output =
        pre.foldl appendProcess [] ++
          ((if h : (Fields line).length ≥ 2 then
              [{ Pid := (Fields line)[0], Name := (Fields line)[1] }]
            else []) ++
          post.foldl appendProcess [])) ∧
    getProcessList (.ok samplePs) =
      some (.ok [{ Pid := str "1", Name := str "systemd" },
        { Pid := str "23", Name := str "kthreadd" }]) := by
  refine ⟨getProcessList_ok output, ?_, Split_intercalate output, Split_no_newline output,
    Fields_nil, Fields_space_cons, Fields_word, ?_, ?_, fun _ => rfl, ?_, ?_⟩
  · have := List.length_filterMap_le (fun line =>
      match Fields line with
      | pid :: name :: _ => some ({ Pid := pid, Name := name } : Process)
      | _ => none) ((Split output).drop 1)
    simpa [parseSpec] using this
  · intro w r rest hne hw hr
    exact Fields_word_space w r rest hne hw hr
  · intro c
    exact isSpace_iff c
  · intro pre line post hsplit
    simp only [parseSpec, hsplit, foldl_appendProcess, List.nil_append, List.filterMap_append,
      List.filterMap_cons]
    rcases hf : Fields line with _ | ⟨a, _ | ⟨b, t⟩⟩ <;> simp
  · rw [getProcessList_ok, parseSpec_samplePs]
    rfl

/-- C10: the parse of `getProcessList` never panics: the split yields at
least one line, so the capacity `len(lines)-1` is not negative and
`lines[1:]` is in range, and a result is returned for every output; on the
empty output, on a header without newline and on a header followed by one
newline the result is the empty process list, without error. -/
theorem getProcessList_total (output header : GoString)
    (hheader : GoRune.char '\n' ∉ header) :
    (∃ processes, getProcessList (.ok output) = some (.ok processes)) ∧
    1 ≤ (Split output).length ∧
    0 ≤ ((Split output).length : Int) - 1 ∧
    getProcessList (.ok []) = some (.ok []) ∧
    getProcessList (.ok header) = some (.ok []) ∧
    getProcessList (.ok (header ++ str "\n")) = some (.ok []) := by
  have hpos := Split_length_pos output
  refine ⟨⟨_, getProcessList_ok output⟩, hpos, by omega, ?_, ?_, ?_⟩
  · rw [getProcessList_ok]
    rfl
  · rw [getProcessList_ok]
    simp [parseSpec, Split_of_no_newline _ hheader]
  · rw [getProcessList_ok]
    have hdata : header ++ str "\n" = header ++ GoRune.char '\n' :: [] := rfl
    simp [parseSpec, hdata, Split_append_newline _ _ hheader, Split, Fields, fieldsAux]

/-- Witness of C10: the header line that `ps -e -o pid,comm` prints. -/
theorem getProcessList_total_witness :
    GoRune.char '\n' ∉ str "  PID COMMAND" ∧
      (∃ processes, getProcessList (.ok samplePs) = some (.ok processes)) ∧
      1 ≤ (Split samplePs).length ∧
      0 ≤ ((Split samplePs).length : Int) - 1 ∧
      getProcessList (.ok []) = some (.ok []) ∧
      getProcessList (.ok (str "  PID COMMAND")) = some (.ok []) ∧
      getProcessList (.ok (str "  PID COMMAND" ++ str "\n")) = some (.ok []) :=
  ⟨by decide, getProcessList_total samplePs (str "  PID COMMAND") (by decide)⟩

/-! ## Process-list sampler -/

theorem setProcessGauge_eq (v : GaugeVec) (p : Process)
    (hp : ValidString p.Pid = true ∧ ValidString p.Name = true) :
    setProcessGauge v p =
      some (MetricVec.modify v [p.Pid, p.Name] (F64.fin 0) (fun _ => F64.fin 1)) := by
  simp [setProcessGauge, GaugeVec.Set, validateLabelValues, hp.1, hp.2]

theorem processFold_spec (processes : List Process) :
    (∀ p ∈ processes, ValidString p.Pid = true ∧ ValidString p.Name = true) →
    ∀ v : GaugeVec,
      ∃ v', processes.foldlM setProcessGauge v = some v' ∧
        (∀ k, MetricVec.get? v' k =
          if k ∈ processes.map (fun p => [p.Pid, p.Name]) then some (F64.fin 1)
          else MetricVec.get? v k) ∧
        ((MetricVec.keys v).Nodup → (MetricVec.keys v').Nodup) := by
  induction processes with
  | nil =>
    intro _ v
    exact ⟨v, rfl, fun k => by simp, id⟩
  | cons p rest ih =>
    intro hvalid v
    have hp := hvalid p (List.mem_cons_self _ _)
    have hrest : ∀ x ∈ rest, ValidString x.Pid = true ∧ ValidString x.Name = true :=
      fun x hx => hvalid x (List.mem_cons_of_mem _ hx)
    obtain ⟨v', hrun, hget, hnodup⟩ :=
      ih hrest (MetricVec.modify v [p.Pid, p.Name] (F64.fin 0) (fun _ => F64.fin 1))
    refine ⟨v', ?_, fun k => ?_, fun hv => ?_⟩
    · rw [List.foldlM_cons, setProcessGauge_eq v p hp]
      exact hrun
    · rw [hget, MetricVec.get?_modify]
      by_cases hk : k ∈ rest.map (fun p => [p.Pid, p.Name])
      · simp [hk]
      · by_cases hpk : [p.Pid, p.Name] = k
        · simp [hk, hpk.symm]
        · have hpk' : ¬ k = [p.Pid, p.Name] := fun e => hpk e.symm
          simp [hk, hpk, hpk']
    · exact hnodup (MetricVec.keys_modify_nodup v [p.Pid, p.Name] (F64.fin 0) _ hv).1

theorem labels_mem_iff (processes : List Process) (pid name : GoString) :
    [pid, name] ∈ processes.map (fun p => [p.Pid, p.Name]) ↔
      ({ Pid := pid, Name := name } : Process) ∈ processes := by
  simp only [List.mem_map]
  constructor
  · rintro ⟨p, hp, he⟩
    obtain ⟨a, b⟩ := p
    simp only [List.cons.injEq, and_true] at he
    obtain ⟨rfl, rfl⟩ := he
    exact hp
  · intro hp
    exact ⟨_, hp, rfl⟩

theorem sampleProcesses_valid :
    ∀ p ∈ sampleProcesses, ValidString p.Pid = true ∧ ValidString p.Name = true := by
  decide

/-- Counterexample to C3: `ps` reports a process whose name is the byte
`0xff`; `getProcessList` returns it without error, and the cycle panics in
`WithLabelValues` after `Reset` has emptied the family, so it leaves no
family that holds the fetched list. -/
theorem processListUpdate_raw_name_panics :
    getProcessList (.ok rawPs) = some (.ok [rawNameProcess]) ∧
      processListUpdate (.ok [rawNameProcess]) staleRegistry = none ∧
      processSamplerCycle (.ok rawPs) staleRegistry = none ∧
      processCycleStates [rawNameProcess] staleFamily = [staleFamily, []] := by
  have hparse : parseSpec rawPs = [rawNameProcess] := by decide
  have hget : getProcessList (.ok rawPs) = some (.ok [rawNameProcess]) := by
    rw [getProcessList_ok, hparse]
  have hset : setProcessGauge [] rawNameProcess = none := by decide
  have hupd : processListUpdate (.ok [rawNameProcess]) staleRegistry = none := by
    simp only [processListUpdate, MetricVec.Reset, List.foldlM_cons, hset]
    rfl
  refine ⟨hget, hupd, ?_, ?_⟩
  · simp only [processSamplerCycle, hget, Option.some_bind, hupd]
  · simp only [processCycleStates, setStates, MetricVec.Reset, hset]

/-- C3, amended: after one cycle on a successfully fetched process list
whose pids and names are valid UTF-8, whatever the registry held before, the
cycle returns, only the `process_list` family has changed, it holds exactly
the label pairs `(pid, name)` of the list, each once and with value 1, and it
is the same family for every prior state; this is the cycle the sampler runs
whenever `getProcessList` returns that list. -/
theorem processListUpdate_exact (st other : Registry) (processes : List Process)
    (hvalid : ∀ p ∈ processes, ValidString p.Pid = true ∧ ValidString p.Name = true) :
    ∃ st', processListUpdate (.ok processes) st = some st' ∧
      st' = { st with processListGauge := st'.processListGauge } ∧
      (∀ pid name,
        MetricVec.get? st'.processListGauge [pid, name] =
          if ({ Pid := pid, Name := name } : Process) ∈ processes then some (F64.fin 1)
          else none) ∧
      (∀ k, k ∈ MetricVec.keys st'.processListGauge ↔
        ∃ p ∈ processes, k = [p.Pid, p.Name]) ∧
      (MetricVec.keys st'.processListGauge).Nodup ∧
      (∃ st'', processListUpdate (.ok processes) other = some st'' ∧
        st''.processListGauge = st'.processListGauge) ∧
      (∀ cmdOutput, getProcessList cmdOutput = some (.ok processes) →
        processSamplerCycle cmdOutput st = some st') := by
  obtain ⟨v', hrun, hget, hnodup⟩ := processFold_spec processes hvalid []
  have hupd : ∀ s : Registry,
      processListUpdate (.ok processes) s = some { s with processListGauge := v' } := by
    intro s
    simp only [processListUpdate, MetricVec.Reset, hrun, Option.map_some']
  have hget' : ∀ k, MetricVec.get? v' k =
      if k ∈ processes.map (fun p => [p.Pid, p.Name]) then some (F64.fin 1) else none := by
    intro k
    rw [hget]
    simp [MetricVec.get?]
  refine ⟨{ st with processListGauge := v' }, hupd st, rfl, fun pid name => ?_, fun k => ?_,
    hnodup (by simp [MetricVec.keys]), ⟨_, hupd other, rfl⟩, fun cmdOutput hcmd => ?_⟩
  · show MetricVec.get? v' [pid, name] = _
    rw [hget']
    have hiff := labels_mem_iff processes pid name
    by_cases h : ({ Pid := pid, Name := name } : Process) ∈ processes
    · rw [if_pos (hiff.2 h), if_pos h]
    · rw [if_neg (fun hm => h (hiff.1 hm)), if_neg h]
  · show k ∈ MetricVec.keys v' ↔ _
    rw [← MetricVec.get?_isSome_iff, hget']
    by_cases h : k ∈ processes.map (fun p => [p.Pid, p.Name])
    · rw [if_pos h]
      simp only [Option.isSome_some, true_iff]
      obtain ⟨p, hp, he⟩ := List.mem_map.1 h
      exact ⟨p, hp, he.symm⟩
    · rw [if_neg h]
      simp only [Option.isSome_none, Bool.false_eq_true, false_iff]
      rintro ⟨p, hp, he⟩
      exact h (List.mem_map.2 ⟨p, hp, he.symm⟩)
  · simp only [processSamplerCycle, hcmd, Option.some_bind, hupd st]

/-- Witness of the amended C3: on a registry that holds the pair `(9, old)`
from an earlier cycle, a cycle on the processes `(1, systemd)` and
`(23, kthreadd)` leaves `(1, systemd)` with value 1 and removes `(9, old)`. -/
theorem processListUpdate_exact_witness :
    (∀ p ∈ sampleProcesses, ValidString p.Pid = true ∧ ValidString p.Name = true) ∧
      ∃ st', processListUpdate (.ok sampleProcesses) staleRegistry = some st' ∧
        MetricVec.get? st'.processListGauge [str "1", str "systemd"] = some (F64.fin 1) ∧
        MetricVec.get? st'.processListGauge [str "9", str "old"] = none := by
  obtain ⟨st', hrun, _, hget, _⟩ :=
    processListUpdate_exact staleRegistry Registry.fresh sampleProcesses sampleProcesses_valid
  refine ⟨sampleProcesses_valid, st', hrun, ?_, ?_⟩
  · rw [hget]
    decide
  · rw [hget]
    decide

/-- C4: when `getProcessList` returns an error, which it does only when the
`ps` command itself failed, the cycle of the process-list sampler returns the
registry it started from: no family is reset or set. -/
theorem processSamplerCycle_error (cmdOutput : Except String GoString) (st : Registry)
    (err : String) (herr : getProcessList cmdOutput = some (.error err)) :
    processSamplerCycle cmdOutput st = some st ∧ cmdOutput = .error err := by
  refine ⟨by simp only [processSamplerCycle, herr, Option.some_bind, processListUpdate], ?_⟩
  cases cmdOutput with
  | error e =>
    simp only [getProcessList, Option.some.injEq, Except.error.injEq] at herr
    rw [herr]
  | ok output =>
    rw [getProcessList_ok] at herr
    simp at herr

/-- Witness of C4: the `ps` command exits with a failure. -/
theorem processSamplerCycle_error_witness :
    getProcessList (.error "exit status 1") = some (.error "exit status 1") ∧
      processSamplerCycle (.error "exit status 1") staleRegistry = some staleRegistry ∧
      (.error "exit status 1" : Except String GoString) = .error "exit status 1" :=
  ⟨rfl, processSamplerCycle_error (.error "exit status 1") staleRegistry "exit status 1" rfl⟩

/-! ## What a scrape can observe during a cycle -/

theorem setStates_spec (processes : List Process) :
    (∀ p ∈ processes, ValidString p.Pid = true ∧ ValidString p.Name = true) →
    ∀ v : GaugeVec,
      (setStates processes v).length = processes.length + 1 ∧
      ∀ i, i ≤ processes.length →
        ∃ fam, (processes.take i).foldlM setProcessGauge v = some fam ∧
          (setStates processes v)[i]? = some fam := by
  induction processes with
  | nil =>
    intro _ v
    refine ⟨rfl, fun i hi => ?_⟩
    have h0 : i = 0 := by simpa using hi
    subst h0
    exact ⟨v, rfl, rfl⟩
  | cons p rest ih =>
    intro hvalid v
    have hp := hvalid p (List.mem_cons_self _ _)
    have hrest : ∀ x ∈ rest, ValidString x.Pid = true ∧ ValidString x.Name = true :=
      fun x hx => hvalid x (List.mem_cons_of_mem _ hx)
    have hset := setProcessGauge_eq v p hp
    obtain ⟨hlen, hidx⟩ :=
      ih hrest (MetricVec.modify v [p.Pid, p.Name] (F64.fin 0) (fun _ => F64.fin 1))
    have hstates : setStates (p :: rest) v =
        v :: setStates rest
          (MetricVec.modify v [p.Pid, p.Name] (F64.fin 0) (fun _ => F64.fin 1)) := by
      simp only [setStates, hset]
    refine ⟨by rw [hstates, List.length_cons, hlen, List.length_cons], fun i hi => ?_⟩
    cases i with
    | zero => exact ⟨v, rfl, by rw [hstates, List.getElem?_cons_zero]⟩
    | succ j =>
      obtain ⟨fam, hfold, hget⟩ := hidx j (by simpa using hi)
      refine ⟨fam, ?_, ?_⟩
      · rw [List.take_succ_cons, List.foldlM_cons, hset]
        exact hfold
      · rw [hstates, List.getElem?_cons_succ]
        exact hget

/-- Counterexample to C8: in a cycle on the processes `(1, systemd)` and
`(23, kthreadd)`, started on a family that holds `(9, old)`, the family is
in turn the old family, empty, half filled and complete; the empty state is
neither the complete old family nor the complete new one. -/
theorem processCycle_intermediate_states :
    processCycleStates sampleProcesses staleFamily =
        [staleFamily, [],
          [([str "1", str "systemd"], F64.fin 1)],
          [([str "1", str "systemd"], F64.fin 1), ([str "23", str "kthreadd"], F64.fin 1)]] ∧
      (processListUpdate (.ok sampleProcesses) staleRegistry).map
          (fun st => st.processListGauge) =
        some [([str "1", str "systemd"], F64.fin 1), ([str "23", str "kthreadd"], F64.fin 1)] ∧
      ¬ ∀ s ∈ processCycleStates sampleProcesses staleFamily,
          s = staleFamily ∨
            s = [([str "1", str "systemd"], F64.fin 1),
              ([str "23", str "kthreadd"], F64.fin 1)] := by
  have hstates : processCycleStates sampleProcesses staleFamily =
      [staleFamily, [],
        [([str "1", str "systemd"], F64.fin 1)],
        [([str "1", str "systemd"], F64.fin 1), ([str "23", str "kthreadd"], F64.fin 1)]] := by
    rfl
  refine ⟨hstates, rfl, fun h => ?_⟩
  have hmem : ([] : GaugeVec) ∈ processCycleStates sampleProcesses staleFamily := by
    rw [hstates]
    simp
  rcases h [] hmem with h1 | h1
  · simp [staleFamily] at h1
  · simp at h1

/-- C8, amended: no lock spans the calls of a cycle, so a scrape can fall
between any two of them.  In a cycle on a list of `n` processes with valid
UTF-8 labels the family goes through `n + 2` states: the family of the
previous cycle, then, for `i` from 0 to `n`, the family that holds exactly
the pairs of the first `i` processes, each once and with value 1 (empty
right after `Reset`, partly filled after each `Set`); the last of them is the
complete family the cycle leaves.  After `Reset` no pair of the previous
cycle that is absent from the list is visible. -/
theorem processCycleStates_spec (processes : List Process) (st : Registry)
    (hvalid : ∀ p ∈ processes, ValidString p.Pid = true ∧ ValidString p.Name = true) :
    (processCycleStates processes st.processListGauge).length = processes.length + 2 ∧
    (processCycleStates processes st.processListGauge)[0]? = some st.processListGauge ∧
    (∀ i, i ≤ processes.length →
      ∃ fam, (processCycleStates processes st.processListGauge)[i + 1]? = some fam ∧
        (∀ k, MetricVec.get? fam k =
          if k ∈ (processes.take i).map (fun p => [p.Pid, p.Name]) then some (F64.fin 1)
          else none) ∧
        (MetricVec.keys fam).Nodup) ∧
    (∃ st', processListUpdate (.ok processes) st = some st' ∧
      (processCycleStates processes st.processListGauge)[processes.length + 1]? =
        some st'.processListGauge) := by
  obtain ⟨hlen, hidx⟩ := setStates_spec processes hvalid []
  refine ⟨?_, by simp only [processCycleStates, List.getElem?_cons_zero], fun i hi => ?_, ?_⟩
  · simp only [processCycleStates, MetricVec.Reset, List.length_cons, hlen]
  · obtain ⟨fam, hfold, hget⟩ := hidx i hi
    have hsub : ∀ p ∈ processes.take i, ValidString p.Pid = true ∧ ValidString p.Name = true :=
      fun p hp => hvalid p (List.mem_of_mem_take hp)
    obtain ⟨v', hrun, hspec, hnodup⟩ := processFold_spec (processes.take i) hsub []
    have he : v' = fam := by
      rw [hfold] at hrun
      exact (Option.some.inj hrun).symm
    subst he
    refine ⟨v', ?_, fun k => ?_, hnodup (by simp [MetricVec.keys])⟩
    · simp only [processCycleStates, MetricVec.Reset, List.getElem?_cons_succ]
      exact hget
    · rw [hspec]
      simp [MetricVec.get?]
  · obtain ⟨fam, hfold, hget⟩ := hidx processes.length (le_refl _)
    rw [List.take_length] at hfold
    refine ⟨{ st with processListGauge := fam }, ?_, ?_⟩
    · simp only [processListUpdate, MetricVec.Reset, hfold, Option.map_some']
    · simp only [processCycleStates, MetricVec.Reset, List.getElem?_cons_succ]
      exact hget

/-- Witness of the amended C8: the cycle on `(1, systemd)` and
`(23, kthreadd)` goes through four states, the second of them empty. -/
theorem processCycleStates_spec_witness :
    (∀ p ∈ sampleProcesses, ValidString p.Pid = true ∧ ValidString p.Name = true) ∧
      (processCycleStates sampleProcesses staleRegistry.processListGauge).length = 4 ∧
      (processCycleStates sampleProcesses staleRegistry.processListGauge)[0]? =
        some staleFamily ∧
      ∃ fam, (processCycleStates sampleProcesses staleRegistry.processListGauge)[1]? =
          some fam ∧
        MetricVec.get? fam [str "9", str "old"] = none := by
  obtain ⟨hlen, h0, hi, _⟩ :=
    processCycleStates_spec sampleProcesses staleRegistry sampleProcesses_valid
  obtain ⟨fam, hfam, hget, _⟩ := hi 0 (Nat.zero_le _)
  refine ⟨sampleProcesses_valid, hlen, h0, fam, hfam, ?_⟩
  rw [hget]
  rfl

end InfraExporter
